import Mathlib

/-!
Shallow embedding of the `dir-cache` repository (MarcusGrass/dir-cache).

Translation conventions:
* Byte blobs are `List Nat`; file and path names are `List Char`
  (paths are modelled as UTF-8 character sequences, Unix flavour: `/` is the
  only separator and an absolute path is one that starts with `/`).
* `std::time::Duration` values are nanosecond counts as `Nat`, capped at
  `durMax` (the nanosecond value of `Duration::MAX`); `saturating_add`
  is `satAdd`.
* Fallible Rust functions return `Except Err`; the payload strings of the
  Rust error variants are dropped, keeping only the variant.
* The filesystem is modelled per directory: an association list of file
  names to contents plus the list of subdirectory names.  The manifest is
  written via a string render; its content is modelled as the list of its
  lines (`str::lines` of the written text).  Generation files are raw byte
  files.  A whole tree (`FsDir`) is used only for the open/scan path.
* `fs::rename`/`fs::read` on a missing file fail; plain writes succeed.
* The lz4 encoder is an external collaborator and is passed as an opaque
  function argument `lz4`; `Encoding::encode` for `Plain` is the identity,
  exactly as in `opts.rs`.
-/

namespace Dc

/-- Error kinds of `error.rs` as used by the code under `src/` (variant
payloads dropped). -/
inductive Err where
  | dangerousKey
  | pathRelativize
  | readContent
  | writeContent
  | deleteContent
  | parseManifest
  | parseMetadata
  | arithmetic
  | insertWith
  | openErr
deriving DecidableEq, Repr

/-- `Encoding` from `opts.rs` (with the `lz4` feature enabled). -/
inductive Encoding where
  | plain
  | lz4
deriving DecidableEq, Repr

abbrev Bytes := List Nat
abbrev FName := List Char

/-- `Encoding::encode`: `Plain` is the identity, `Lz4` is the external
encoder `lz4`. -/
def encodeBytes (lz4 : Bytes → Bytes) : Encoding → Bytes → Bytes
  | .plain, b => b
  | .lz4, b => lz4 b

/-- `Encoding::serialize` rendered as the characters it displays. -/
def encTag : Encoding → List Char
  | .plain => ['0']
  | .lz4 => ['1']

/-- Nanosecond value of `Duration::MAX` (`u64::MAX` seconds plus
999 999 999 nanoseconds). -/
def durMax : Nat := 2 ^ 64 * 1000000000 - 1

/-- `Duration::saturating_add` on nanosecond counts. -/
def satAdd (a b : Nat) : Nat := min (a + b) durMax

/-- `MemPushOpt` from `opts.rs`. -/
inductive MemPushOpt where
  | retainAndWrite
  | memoryOnly
  | passthroughWrite
deriving DecidableEq, Repr

/-- `MemPullOpt` from `opts.rs`. -/
inductive MemPullOpt where
  | keepInMemoryOnRead
  | dontKeepInMemoryOnRead
deriving DecidableEq, Repr

/-- `ExpirationOpt` from `opts.rs`; durations are nanosecond counts. -/
inductive ExpirationOpt where
  | noExpiry
  | expiresAfter (d : Nat)
deriving DecidableEq, Repr

/-- `ExpirationOpt::as_dur`: `NoExpiry` maps to `Duration::MAX`. -/
def ExpirationOpt.asDur : ExpirationOpt → Nat
  | .noExpiry => durMax
  | .expiresAfter d => d

/-- `GenerationOpt` from `opts.rs`; `max_generations` is a `NonZeroUsize`
in the source, so theorems carry `1 ≤ max_generations` where needed. -/
structure GenerationOpt where
  max_generations : Nat
  old_gen_encoding : Encoding
  expiration : ExpirationOpt
deriving DecidableEq, Repr

/-- Contents of one file: raw bytes (generation files) or text given as its
list of lines (the manifest, as produced by `str::lines`). -/
inductive FileContent where
  | raw (b : Bytes)
  | text (lines : List (List Char))
deriving DecidableEq, Repr

abbrev Files := List (FName × FileContent)

/-- Association-list lookup used for both directory listings and the
entry store. -/
def assocGet {α : Type} : List (FName × α) → FName → Option α
  | [], _ => none
  | (m, c) :: rest, n => if m = n then some c else assocGet rest n

/-- Remove the binding for a name (`ensure_removed_file`: removing an
absent file is not an error). -/
def assocRemove {α : Type} (l : List (FName × α)) (n : FName) : List (FName × α) :=
  l.filter (fun p => ¬ p.1 = n)

/-- Overwriting file write (`std::fs::write`). -/
def fsWrite (l : Files) (n : FName) (c : FileContent) : Files :=
  (n, c) :: assocRemove l n

/-- One directory: its files and the names of its subdirectories. -/
structure DirM where
  files : Files
  subdirs : List FName
deriving DecidableEq, Repr

/-- Decimal digit characters, used to mirror Rust's `format!` rendering of
an index. -/
def digitChar : Nat → Char
  | 0 => '0' | 1 => '1' | 2 => '2' | 3 => '3' | 4 => '4'
  | 5 => '5' | 6 => '6' | 7 => '7' | 8 => '8' | _ => '9'

def digitVal (c : Char) : Nat :=
  if c = '0' then 0 else if c = '1' then 1 else if c = '2' then 2
  else if c = '3' then 3 else if c = '4' then 4 else if c = '5' then 5
  else if c = '6' then 6 else if c = '7' then 7 else if c = '8' then 8 else 9

/-- Decimal rendering of a natural number, fuelled so that it reduces by
computation; `fuel = n` always suffices since the argument is divided by
ten on every step. -/
def natCharsF : Nat → Nat → List Char
  | 0, n => [digitChar n]
  | fuel + 1, n => if n < 10 then [digitChar n] else natCharsF fuel (n / 10) ++ [digitChar (n % 10)]

/-- Decimal rendering of a natural number (Rust `format!("{}", n)`). -/
def natChars (n : Nat) : List Char := natCharsF n n

/-- `MANIFEST_FILE` from `lib.rs`. -/
def manifestName : FName := "dir-cache-manifest.txt".toList

/-- The fixed stem of generation file names. -/
def genStem : FName := "dir-cache-generation-".toList

/-- `format!("dir-cache-generation-{i}")`. -/
def genName (i : Nat) : FName := genStem ++ natChars i

/-- `MANIFEST_VERSION` from `lib.rs`. -/
def manifestVersion : Nat := 1

/-! ### Path handling (`path_util.rs`)

Rust's `Path::components` on Unix splits on `/`, drops empty pieces (so
duplicate, leading and trailing separators vanish), drops `.` pieces except
when the path begins with `.`, and classifies `..` as a parent-directory
component.  `splitSlash` is the raw separator split; `pathComponents` is
the component parse. -/

/-- Split a character list at every `/`; the result always has at least one
(possibly empty) piece, exactly like splitting a string on a separator. -/
def splitSlash : List Char → List (List Char)
  | [] => [[]]
  | c :: rest =>
    if c = '/' then [] :: splitSlash rest
    else
      match splitSlash rest with
      | [] => [[c]]
      | p :: ps => (c :: p) :: ps

/-- A parsed path component (`std::path::Component`, Unix: no prefixes). -/
inductive PComp where
  | rootDir
  | curDir
  | parentDir
  | normal (s : List Char)
deriving DecidableEq, Repr

/-- Classify one non-empty piece. -/
def pieceComp (p : List Char) : PComp :=
  if p = ['.', '.'] then .parentDir else if p = ['.'] then .curDir else .normal p

/-- Components of a relative path: the leading piece keeps a `.`
(`include_cur_dir` in the std implementation); later `.` pieces are
dropped. -/
def pathComponentsRel (s : List Char) : List PComp :=
  match (splitSlash s).filter (fun p => ¬ p = []) with
  | [] => []
  | p :: rest =>
    pieceComp p :: rest.filterMap (fun q => if q = ['.'] then none else some (pieceComp q))

/-- Components of any Unix path; an absolute path contributes a leading
`RootDir` and all its `.` pieces are dropped. -/
def pathComponents (s : List Char) : List PComp :=
  if s.head? = some '/' then
    .rootDir ::
      ((splitSlash s).filter (fun p => ¬ p = [])).filterMap
        (fun q => if q = ['.'] then none else some (pieceComp q))
  else pathComponentsRel s

/-- `Path::join` for a relative right-hand side (Unix `PathBuf::push`). -/
def pathJoin (base other : FName) : FName :=
  if base = [] then other
  else if base.getLast? = some '/' then base ++ other
  else base ++ '/' :: other

/-- Is this parsed component a `Normal` one? -/
def isNormalB : PComp → Bool
  | .normal _ => true
  | _ => false

/-- Byte length a component contributes to the length bookkeeping of
`safe_join` (only `Normal` components are ever counted there). -/
def normLen : PComp → Nat
  | .normal s => s.length
  | _ => 0

/-- `SafePathJoin::safe_join` from `path_util.rs`: reject absolute keys,
keys with an embedded NUL, keys with a non-`Normal` component, and keys
whose normal components plus single separators do not account for every
character; otherwise produce the platform join. -/
def safeJoin (base other : FName) : Except Err FName :=
  if other.head? = some '/' then .error .dangerousKey
  else if other.any (fun c => c = Char.ofNat 0) then .error .dangerousKey
  else
    let comps := pathComponentsRel other
    if comps.all isNormalB then
      let cum := (comps.map normLen).sum
      let num := comps.length
      if cum = 0 ∨ ¬ (cum + num - 1 = other.length) then .error .dangerousKey
      else .ok (pathJoin base other)
    else .error .dangerousKey

/-- Render a component back to characters (used when collecting the
relativized suffix into a `PathBuf`). -/
def compStr : PComp → List Char
  | .rootDir => ['/']
  | .curDir => ['.']
  | .parentDir => ['.', '.']
  | .normal s => s

/-- Collect components into a path, separating them with `/`. -/
def renderComps : List PComp → FName
  | [] => []
  | [c] => compStr c
  | c :: rest => compStr c ++ '/' :: renderComps rest

/-- The pairing loop of `relativize`. -/
def relLoop : List PComp → List PComp → Except Err (List PComp)
  | [], [] => .error .pathRelativize
  | _ :: _, [] => .error .pathRelativize
  | [], b :: bs => .ok (b :: bs)
  | a :: as, b :: bs => if a = b then relLoop as bs else .error .pathRelativize

/-- `relativize` from `path_util.rs`. -/
def relativize (base ext : FName) : Except Err FName :=
  match relLoop (pathComponents base) (pathComponents ext) with
  | .error e => .error e
  | .ok suffix => .ok (renderComps suffix)

/-- A piece usable as a normal path component: non-empty, separator-free
and not a `.`/`..` piece. -/
def NormalPiece (p : List Char) : Prop :=
  ¬ p = [] ∧ ¬ '/' ∈ p ∧ ¬ p = ['.'] ∧ ¬ p = ['.', '.']

instance (p : List Char) : Decidable (NormalPiece p) := by
  unfold NormalPiece; infer_instance

/-- Concatenate pieces with single `/` separators. -/
def joinSep : List (List Char) → List Char
  | [] => []
  | [p] => p
  | p :: ps => p ++ '/' :: joinSep ps

/-- The spec's wording for a safe key: exactly the concatenation of
non-empty normal components separated by single separators. -/
def IsExactConcat (s : List Char) : Prop :=
  ∃ cs : List (List Char), ¬ cs = [] ∧ (∀ c ∈ cs, NormalPiece c) ∧ s = joinSep cs

/-! ### Manifest codec (`lib.rs` read_metadata/dump_metadata, `time.rs`,
`Encoding::deserialize`) -/

/-- Numeric value of a digit string (most significant first). -/
def chVal (l : List Char) : Nat := l.foldl (fun a c => 10 * a + digitVal c) 0

/-- Rust's unsigned integer `FromStr`: an optional leading `+`, then at
least one ASCII digit, and the value must fit the type, whose exclusive
`bound` is passed in. -/
def parseUInt (l : List Char) (bound : Nat) : Option Nat :=
  let l' := match l with
    | '+' :: rest => rest
    | _ => l
  if ¬ l' = [] ∧ l'.all Char.isDigit then
    if chVal l' < bound then some (chVal l') else none
  else none

/-- `duration_from_nano_string ∘ parse::<u128>` from `time.rs`: parse the
decimal nanosecond count, then check the seconds part fits `u64` (the
sub-second nanos always fit `u32`).  The resulting `Duration` is its
nanosecond count again. -/
def parseAgeNanos (l : List Char) : Except Err Nat :=
  match parseUInt l (2 ^ 128) with
  | none => .error .parseMetadata
  | some v => if v / 1000000000 < 2 ^ 64 then .ok v else .error .arithmetic

/-- `str::split_once` on a character. -/
def splitOnce (c : Char) : List Char → Option (List Char × List Char)
  | [] => none
  | x :: rest =>
    if x = c then some ([], rest)
    else
      match splitOnce c rest with
      | some (a, b) => some (x :: a, b)
      | none => none

/-- `Encoding::deserialize`. -/
def encFromTag (l : List Char) : Except Err Encoding :=
  if l = ['0'] then .ok .plain else if l = ['1'] then .ok .lz4 else .error .parseMetadata

/-- Parse one generation line of the manifest (`<age_ns>,<encoding>`). -/
def parseLine (l : List Char) : Except Err (Nat × Encoding) :=
  match splitOnce ',' l with
  | none => .error .parseMetadata
  | some (a, b) =>
    match parseAgeNanos a with
    | .error e => .error e
    | .ok age =>
      match encFromTag b with
      | .error e => .error e
      | .ok enc => .ok (age, enc)

/-- The line loop of `read_metadata`: parsed generations are pushed to the
front of the accumulator, so the result is the reverse of file order. -/
def parseLinesAcc : List (List Char) → List (Nat × Encoding) → Except Err (List (Nat × Encoding))
  | [], acc => .ok acc
  | l :: rest, acc =>
    match parseLine l with
    | .error e => .error e
    | .ok g => parseLinesAcc rest (g :: acc)

/-- Parse generation lines in file order (the plain, unreversed parse;
`read_metadata`'s accumulator produces the reverse of this). -/
def linesParsed : List (List Char) → Except Err (List (Nat × Encoding))
  | [] => .ok []
  | l :: rest =>
    match parseLine l with
    | .error e => .error e
    | .ok g =>
      match linesParsed rest with
      | .error e => .error e
      | .ok gs => .ok (g :: gs)

/-- `DirCacheEntry::read_metadata`: `None` when the manifest file is
absent, error on an empty manifest or an unparsable version line,
otherwise the version and the (reversed) generation list. -/
def readMetadata (fs : Files) : Except Err (Option (Nat × List (Nat × Encoding))) :=
  match assocGet fs manifestName with
  | none => .ok none
  | some (.raw _) => .error .readContent
  | some (.text lines) =>
    match lines with
    | [] => .error .parseMetadata
    | first :: rest =>
      match parseUInt first (2 ^ 64) with
      | none => .error .parseMetadata
      | some v =>
        match parseLinesAcc rest [] with
        | .error e => .error e
        | .ok gens => .ok (some (v, gens))

/-! ### Entry engine state (`lib.rs`) -/

/-- `InMemEntry`. -/
structure InMemEntry where
  committed : Bool
  content : Bytes
deriving DecidableEq, Repr

/-- `ContentGeneration`. -/
structure ContentGeneration where
  encoding : Encoding
  age : Nat
deriving DecidableEq, Repr

/-- `DirCacheEntry`; `on_disk` is the `VecDeque` with its front at the
list head. -/
structure DirCacheEntry where
  in_mem : Option InMemEntry
  on_disk : List ContentGeneration
  last_updated : Nat
deriving DecidableEq, Repr

/-- `DirCacheEntry::new`. -/
def newEntry : DirCacheEntry := ⟨none, [], 0⟩

/-- The lines of the manifest text written by `dump_metadata`: the version
line, then one `<age_ns>,<encoding>` line per generation, front first. -/
def renderManifest (od : List ContentGeneration) : List (List Char) :=
  natChars manifestVersion :: od.map (fun g => natChars g.age ++ ',' :: encTag g.encoding)

/-- `dump_metadata`: rewrite the manifest file. -/
def dumpMetadataF (od : List ContentGeneration) (fs : Files) : Files :=
  fsWrite fs manifestName (.text (renderManifest od))

/-- The truncation loop of `generational_write`: while more than `maxRem`
generations are recorded, best-effort remove `generation-{len}` and pop
the back.  Fuelled so that it reduces by computation; the length shrinks
every iteration, so `fuel = od.length` always suffices. -/
def truncStepF : Nat → List ContentGeneration → Files → Nat → List ContentGeneration × Files
  | 0, od, f, _ => (od, f)
  | fuel + 1, od, f, maxRem =>
    if od.length > maxRem then
      truncStepF fuel od.dropLast (assocRemove f (genName od.length)) maxRem
    else (od, f)

def truncStep (od : List ContentGeneration) (f : Files) (maxRem : Nat) :
    List ContentGeneration × Files :=
  truncStepF od.length od f maxRem

/-- `.enumerate()` over a list, starting at `start`. -/
def idx {α : Type} : List α → Nat → List (Nat × α)
  | [], _ => []
  | x :: rest, start => (start, x) :: idx rest (start + 1)

/-- The promotion loop of `generational_write`, applied to the enumerated
retained generations in reverse (highest index first).  At index 0 with a
non-plain aging encoding the first generation is read, re-encoded and
written to `generation-1` (the source file stays); otherwise
`generation-{ind}` is renamed to `generation-{ind+1}`.  The drained
records are pushed to the front of the queue unchanged. -/
def promoteLoop (lz4 : Bytes → Bytes) (enc : Encoding) :
    List (Nat × ContentGeneration) → Files → List ContentGeneration →
    Except Err (Files × List ContentGeneration)
  | [], f, q => .ok (f, q)
  | (ind, g) :: rest, f, q =>
    if ind = 0 ∧ ¬ enc = .plain then
      match assocGet f (genName 0) with
      | some (.raw content) =>
        promoteLoop lz4 enc rest
          (fsWrite f (genName 1) (.raw (encodeBytes lz4 enc content))) (g :: q)
      | _ => .error .readContent
    else
      match assocGet f (genName ind) with
      | some c =>
        promoteLoop lz4 enc rest
          (fsWrite (assocRemove f (genName ind)) (genName (ind + 1)) c) (g :: q)
      | none => .error .writeContent

/-- `DirCacheEntry::generational_write`.  The `safe_join` calls it makes
use the fixed names `dir-cache-generation-{i}`, which always succeed and
resolve inside the entry directory, so the model works directly on the
entry directory's file list. -/
def generationalWrite (e : DirCacheEntry) (f : Files) (data : Bytes) (enc : Encoding)
    (maxRem : Nat) (now : Nat) (lz4 : Bytes → Bytes) : Except Err (DirCacheEntry × Files) :=
  let tr := truncStep e.on_disk f maxRem
  let promoted := tr.1.take (maxRem - 1)
  match promoteLoop lz4 enc (idx promoted 0).reverse tr.2 [] with
  | .error err => .error err
  | .ok (f2, q) =>
    let newOd := ⟨.plain, now⟩ :: q
    let f3 := fsWrite f2 (genName 0) (.raw data)
    .ok ({ e with on_disk := newOd, last_updated := now }, dumpMetadataF newOd f3)

/-! ### Entry operations (`lib.rs`) -/

/-- `ensure_dir` (`create_dir_all`): an absent directory becomes an empty
one; an existing directory is untouched. -/
def ensureDir : Option DirM → DirM
  | none => ⟨[], []⟩
  | some d => d

/-- `DirCacheInner::run_dir_cache_entry_write`, for one key; the directory
argument is the state of the entry's directory (`None` while it does not
exist). -/
def runDirCacheEntryWrite (e : DirCacheEntry) (dir : Option DirM) (content : Bytes)
    (push : MemPushOpt) (g : GenerationOpt) (now : Nat) (lz4 : Bytes → Bytes) :
    Except Err (DirCacheEntry × Option DirM) :=
  match push with
  | .retainAndWrite =>
    let d := ensureDir dir
    match generationalWrite e d.files content g.old_gen_encoding g.max_generations now lz4 with
    | .error er => .error er
    | .ok (e1, f1) =>
      .ok ({ e1 with in_mem := some ⟨true, content⟩ }, some { d with files := f1 })
  | .memoryOnly =>
    .ok ({ e with in_mem := some ⟨false, content⟩, last_updated := now }, dir)
  | .passthroughWrite =>
    let e0 := { e with in_mem := (none : Option InMemEntry) }
    let d := ensureDir dir
    match generationalWrite e0 d.files content g.old_gen_encoding g.max_generations now lz4 with
    | .error er => .error er
    | .ok (e1, f1) => .ok (e1, some { d with files := f1 })

/-- `DirCacheEntry::insert_new_data` (the entry directory was already
created by the caller).  Unlike `run_dir_cache_entry_write`, the
`RetainAndWrite` arm marks the retained value `committed = false` and the
`PassthroughWrite` arm does not clear `in_mem`. -/
def insertNewData (e : DirCacheEntry) (d : DirM) (data : Bytes) (push : MemPushOpt)
    (g : GenerationOpt) (now : Nat) (lz4 : Bytes → Bytes) : Except Err (DirCacheEntry × DirM) :=
  match push with
  | .retainAndWrite =>
    match generationalWrite e d.files data g.old_gen_encoding g.max_generations now lz4 with
    | .error er => .error er
    | .ok (e1, f1) =>
      .ok ({ e1 with in_mem := some ⟨false, data⟩ }, { d with files := f1 })
  | .memoryOnly =>
    .ok ({ e with in_mem := some ⟨false, data⟩, last_updated := now }, d)
  | .passthroughWrite =>
    match generationalWrite e d.files data g.old_gen_encoding g.max_generations now lz4 with
    | .error er => .error er
    | .ok (e1, f1) => .ok (e1, { d with files := f1 })

/-- `DirCacheInner::insert_opt` restricted to one key: both the
present-key and the absent-key arm run `run_dir_cache_entry_write` (on the
existing entry or on `DirCacheEntry::new`). -/
def insertOpt (st : Option DirCacheEntry) (dir : Option DirM) (content : Bytes)
    (push : MemPushOpt) (g : GenerationOpt) (now : Nat) (lz4 : Bytes → Bytes) :
    Except Err (DirCacheEntry × Option DirM) :=
  match st with
  | some e => runDirCacheEntryWrite e dir content push g now lz4
  | none => runDirCacheEntryWrite newEntry dir content push g now lz4

/-- One insert call of a sequence: its payload, push option, generation
options and the wall-clock time of the call. -/
structure InsStep where
  data : Bytes
  push : MemPushOpt
  g : GenerationOpt
  now : Nat
deriving DecidableEq, Repr

/-- A sequence of `insert_opt` calls on a single key, starting from the
given single-key state. -/
def insertSeq (lz4 : Bytes → Bytes) :
    List InsStep → Option DirCacheEntry × Option DirM →
    Except Err (Option DirCacheEntry × Option DirM)
  | [], st => .ok st
  | s :: rest, (ste, std) =>
    match insertOpt ste std s.data s.push s.g s.now lz4 with
    | .error e => .error e
    | .ok (e1, d1) => insertSeq lz4 rest (some e1, d1)

/-- The generation loop of `read_from_dir`: `entries` is the (reversed)
list produced by `read_metadata`, `ind` the running `enumerate` index.
Expired generations get their file `generation-{ind}` removed and their
record dropped; index 0 sets `last_updated` and, when eager, loads
`generation-0` into memory as committed; surviving records are pushed to
the back. -/
def rfdGo (eager : Bool) (g : GenerationOpt) (now : Nat) :
    List (Nat × Encoding) → Nat → Files → Option InMemEntry → List ContentGeneration →
    Option Nat →
    Except Err (Files × Option InMemEntry × List ContentGeneration × Option Nat)
  | [], _, f, im, od, lu => .ok (f, im, od, lu)
  | (age, enc) :: rest, ind, f, im, od, lu =>
    if satAdd age g.expiration.asDur ≤ now then
      rfdGo eager g now rest (ind + 1) (assocRemove f (genName ind)) im od lu
    else
      if ind = 0 then
        if eager then
          match assocGet f (genName ind) with
          | some (.raw content) =>
            rfdGo eager g now rest (ind + 1) f (some ⟨true, content⟩)
              (od ++ [⟨enc, age⟩]) (some age)
          | _ => .error .readContent
        else rfdGo eager g now rest (ind + 1) f im (od ++ [⟨enc, age⟩]) (some age)
      else rfdGo eager g now rest (ind + 1) f im (od ++ [⟨enc, age⟩]) lu

/-- `DirCacheEntry::read_from_dir` for one directory; also returns the
directory's files after expired-generation removal. -/
def readFromDir (d : DirM) (eager : Bool) (g : GenerationOpt) (now : Nat) :
    Except Err (Option DirCacheEntry × DirM) :=
  match readMetadata d.files with
  | .error e => .error e
  | .ok none => .ok (none, d)
  | .ok (some (version, entries)) =>
    if version = manifestVersion then
      match rfdGo eager g now entries 0 d.files none [] none with
      | .error e => .error e
      | .ok (f1, im, od, some lu) =>
        .ok (some ⟨im, od, lu⟩, { d with files := f1 })
      | .ok (f1, _, _, none) => .ok (none, { d with files := f1 })
    else .error .parseManifest

/-! ### Cache-level operations (`lib.rs`, `disk.rs`) -/

/-- `try_remove_dir` from `disk.rs`: walk the directory, remove every
file, and remove the directory itself when it holds no subdirectory.  The
result is the directory's state afterwards (`none` when it was removed).
Listing a non-existent directory fails. -/
def tryRemoveDir : Option DirM → Except Err (Option DirM)
  | none => .error .readContent
  | some d => if d.subdirs = [] then .ok none else .ok (some { d with files := [] })

/-- `DirCacheInner::remove` for one key: drop the entry from the map (if
present) and clean its directory. -/
def removeKey (st : Option DirCacheEntry) (dir : Option DirM) :
    Except Err (Bool × Option DirCacheEntry × Option DirM) :=
  match st with
  | none => .ok (false, none, dir)
  | some _ =>
    match tryRemoveDir dir with
    | .error e => .error e
    | .ok dir1 => .ok (true, none, dir1)

/-- The read tail of `get_opt` (source lines after the expiry checks):
return the in-memory value when present, otherwise read `generation-0`
from disk, erroring when it is absent, and retain it as committed unless
`DontKeepInMemoryOnRead`. -/
def getRead (val : DirCacheEntry) (dir : Option DirM) (pull : MemPullOpt) :
    Except Err (Option Bytes × Option DirCacheEntry × Option DirM) :=
  match val.in_mem with
  | some m => .ok (some m.content, some val, dir)
  | none =>
    match dir with
    | none => .error .readContent
    | some dm =>
      match assocGet dm.files (genName 0) with
      | some (.raw bytes) =>
        match pull with
        | .dontKeepInMemoryOnRead => .ok (some bytes, some val, dir)
        | .keepInMemoryOnRead =>
          .ok (some bytes, some { val with in_mem := some ⟨true, bytes⟩ }, dir)
      | _ => .error .readContent

/-- `DirCacheInner::get_opt` for one key.  The result triple is the
returned value, the store state at the key and the entry directory's
state. -/
def getOptS (st : Option DirCacheEntry) (dir : Option DirM) (now : Nat)
    (pull : MemPullOpt) (g : GenerationOpt) :
    Except Err (Option Bytes × Option DirCacheEntry × Option DirM) :=
  match st with
  | none => .ok (none, none, dir)
  | some val =>
    if satAdd val.last_updated g.expiration.asDur ≤ now then
      match tryRemoveDir dir with
      | .error e => .error e
      | .ok dir1 => .ok (none, none, dir1)
    else
      match val.on_disk.head? with
      | some fgen =>
        if satAdd fgen.age g.expiration.asDur ≤ now then
          match tryRemoveDir dir with
          | .error e => .error e
          | .ok dir1 => .ok (none, none, dir1)
        else getRead val dir pull
      | none =>
        if val.in_mem.isNone then
          match tryRemoveDir dir with
          | .error e => .error e
          | .ok dir1 => .ok (none, none, dir1)
        else getRead val dir pull

/-- Result of `get_or_insert_opt`: a value plus the new single-key state,
a propagated error, or a panic (the source `unwrap`s the `get_opt`
result). -/
inductive GoiOut where
  | success (v : Bytes) (st : Option DirCacheEntry) (dir : Option DirM)
  | panicked
  | failure (e : Err)
deriving DecidableEq, Repr

/-- `DirCacheInner::get_or_insert_opt` for one key; `producer` is the
result the user closure would deliver (the closure itself is external). -/
def getOrInsertOpt (st : Option DirCacheEntry) (dir : Option DirM)
    (producer : Except Unit Bytes) (pull : MemPullOpt) (push : MemPushOpt)
    (g : GenerationOpt) (now : Nat) (lz4 : Bytes → Bytes) : GoiOut :=
  match st with
  | some _ =>
    match getOptS st dir now pull g with
    | .error e => .failure e
    | .ok (some v, st1, dir1) => .success v st1 dir1
    | .ok (none, _, _) => .panicked
  | none =>
    match producer with
    | .error _ => .failure .insertWith
    | .ok val =>
      let d := ensureDir dir
      match insertNewData newEntry d val push g now lz4 with
      | .error e => .failure e
      | .ok (e1, d1) =>
        match getOptS (some e1) (some d1) now pull g with
        | .error e => .failure e
        | .ok (some v, st1, dir1) => .success v st1 dir1
        | .ok (none, _, _) => .panicked

/-- `DirCacheEntry::dump_in_mem`: take the in-memory value; a
not-yet-committed value is written generationally (and optionally
retained, now committed); otherwise only the manifest is rewritten. -/
def dumpInMem (e : DirCacheEntry) (d : DirM) (keep : Bool) (keepGens : Nat)
    (enc : Encoding) (now : Nat) (lz4 : Bytes → Bytes) : Except Err (DirCacheEntry × DirM) :=
  let e0 := { e with in_mem := (none : Option InMemEntry) }
  match e.in_mem with
  | some im =>
    if im.committed = false then
      match generationalWrite e0 d.files im.content enc keepGens now lz4 with
      | .error er => .error er
      | .ok (e1, f1) =>
        if keep then .ok ({ e1 with in_mem := some ⟨true, im.content⟩ }, { d with files := f1 })
        else .ok (e1, { d with files := f1 })
    else .ok (e0, { d with files := dumpMetadataF e0.on_disk d.files })
  | none => .ok (e0, { d with files := dumpMetadataF e0.on_disk d.files })

/-- Does this push option retain values in memory on sync
(`matches!(mem_push_opt, MemPushOpt::RetainAndWrite)`)? -/
def isRetain : MemPushOpt → Bool
  | .retainAndWrite => true
  | _ => false

/-- `DirCacheInner::sync_to_disk`: walk the store, joining each key onto
the base, ensuring its directory and flushing its entry.  The directory
map is keyed by the store key (each key's directory is
`base.safe_join(key)`). -/
def syncStore (basePath : FName) (push : MemPushOpt) (g : GenerationOpt) (now : Nat)
    (lz4 : Bytes → Bytes) :
    List (FName × DirCacheEntry) → List (FName × Option DirM) →
    Except Err (List (FName × DirCacheEntry) × List (FName × Option DirM))
  | [], dirs => .ok ([], dirs)
  | (k, v) :: rest, dirs =>
    match safeJoin basePath k with
    | .error e => .error e
    | .ok _ =>
      let d := ensureDir ((assocGet dirs k).join)
      match dumpInMem v d (isRetain push) g.max_generations g.old_gen_encoding now lz4 with
      | .error e => .error e
      | .ok (v1, d1) =>
        match syncStore basePath push g now lz4 rest
            ((k, some d1) :: assocRemove dirs k) with
        | .error e => .error e
        | .ok (rest1, dirs1) => .ok ((k, v1) :: rest1, dirs1)

/-! ### Open-time directory scan (`lib.rs` read_from_disk) -/

/-- A filesystem subtree: the files of a directory plus its named
subdirectories. -/
inductive FsDir where
  | node : Files → List (FName × FsDir) → FsDir

/-- The flat view of a tree node. -/
def FsDir.toDirM : FsDir → DirM
  | .node fs subs => ⟨fs, subs.map (fun p => p.1)⟩

mutual
def FsDir.size : FsDir → Nat
  | .node _ subs => 1 + sizePairs subs
def sizePairs : List (FName × FsDir) → Nat
  | [] => 0
  | (_, d) :: rest => FsDir.size d + sizePairs rest
end

/-- Total number of directories in a scan queue. -/
def sizeQueue : List (FName × FsDir) → Nat
  | [] => 0
  | (_, d) :: rest => FsDir.size d + sizeQueue rest

/-- The breadth-first loop of `read_from_disk`, fuelled so that it reduces
by computation: every directory is popped exactly once, so
`sizeQueue queue` iterations always suffice (the fuel-exhaustion arm is
unreachable with the fuel supplied by `readFromDisk`).  Each iteration
reads an entry from the popped directory, enqueues its subdirectories,
and registers the entry (if any) under the relativized key. -/
def readFromDiskGoF (basePath : FName) (eager : Bool) (g : GenerationOpt) (now : Nat) :
    Nat → List (FName × FsDir) → List (FName × DirCacheEntry) →
    Except Err (List (FName × DirCacheEntry))
  | _, [], store => .ok store
  | 0, _ :: _, _ => .error .readContent
  | fuel + 1, (p, fd) :: rest, store =>
    match readFromDir fd.toDirM eager g now with
    | .error e => .error e
    | .ok (entryOpt, _) =>
      let newQ := rest ++
        (match fd with
          | .node _ subs => subs.map (fun pr => (pathJoin p pr.1, pr.2)))
      match entryOpt with
      | none => readFromDiskGoF basePath eager g now fuel newQ store
      | some de =>
        match relativize basePath p with
        | .error e => .error e
        | .ok rel =>
          readFromDiskGoF basePath eager g now fuel newQ
            ((rel, de) :: assocRemove store rel)

/-- `DirCacheInner::read_from_disk`: breadth-first scan starting at the
cache root. -/
def readFromDisk (basePath : FName) (root : FsDir) (eager : Bool) (g : GenerationOpt)
    (now : Nat) : Except Err (List (FName × DirCacheEntry)) :=
  readFromDiskGoF basePath eager g now (sizeQueue [(basePath, root)]) [(basePath, root)] []

/-! ### Derived predicates used by the statements -/

/-- The file `n` exists and holds raw bytes. -/
def hasRaw (f : Files) (n : FName) : Prop :=
  ∃ b, assocGet f n = some (FileContent.raw b)

/-- The generation-file invariant of an entry directory holding `len`
recorded generations: `generation-i` exists exactly for `i < len`, and
every file is either the manifest or such a generation file. -/
def GenInv (f : Files) (len : Nat) : Prop :=
  (∀ i, hasRaw f (genName i) ↔ i < len) ∧
  (∀ n c, assocGet f n = some c → n = manifestName ∨ ∃ i, i < len ∧ n = genName i)

/-- Single-key cache-state invariant for insert sequences under a fixed
generation cap `M`. -/
def StInv (M : Nat) (st : Option DirCacheEntry × Option DirM) : Prop :=
  (st.1 = none ∧ st.2 = none) ∨
  (∃ e d, st.1 = some e ∧ st.2 = some d ∧
    e.on_disk.length ≤ M ∧ GenInv d.files e.on_disk.length)

/-- The states in which `get_opt` drops the entry and cleans its
directory (the actual condition of the code; the in-memory value is not
consulted when a newest disk generation exists). -/
def expiredCond (e : DirCacheEntry) (dd : Nat) (now : Nat) : Prop :=
  satAdd e.last_updated dd ≤ now ∨
  (∃ fgen, e.on_disk.head? = some fgen ∧ satAdd fgen.age dd ≤ now) ∨
  (e.on_disk = [] ∧ e.in_mem = none)

/-! ### Basic lemmas about the filesystem model -/

theorem assocGet_remove_self {α : Type} (l : List (FName × α)) (n : FName) :
    assocGet (assocRemove l n) n = none := by
  induction l with
  | nil => rfl
  | cons p rest ih =>
    by_cases h : p.1 = n
    · simpa [assocRemove, h] using ih
    · simpa [assocRemove, assocGet, h] using ih

theorem assocGet_remove_other {α : Type} (l : List (FName × α)) (n m : FName)
    (h : ¬ m = n) : assocGet (assocRemove l n) m = assocGet l m := by
  induction l with
  | nil => rfl
  | cons p rest ih =>
    by_cases hp : p.1 = n
    · have hpm : ¬ p.1 = m := by rw [hp]; exact fun hc => h hc.symm
      calc assocGet (assocRemove (p :: rest) n) m
          = assocGet (assocRemove rest n) m := by
            simp [assocRemove, List.filter_cons, hp]
        _ = assocGet rest m := ih
        _ = assocGet (p :: rest) m := by simp [assocGet, hpm]
    · by_cases hm : p.1 = m
      · calc assocGet (assocRemove (p :: rest) n) m
            = some p.2 := by simp [assocRemove, List.filter_cons, hp, assocGet, hm, h]
          _ = assocGet (p :: rest) m := by simp [assocGet, hm]
      · calc assocGet (assocRemove (p :: rest) n) m
            = assocGet (assocRemove rest n) m := by
              simp [assocRemove, List.filter_cons, hp, assocGet, hm]
          _ = assocGet rest m := ih
          _ = assocGet (p :: rest) m := by simp [assocGet, hm]

theorem assocGet_write_self (l : Files) (n : FName) (c : FileContent) :
    assocGet (fsWrite l n c) n = some c := by
  simp [fsWrite, assocGet]

theorem assocGet_write_other (l : Files) (n m : FName) (c : FileContent)
    (h : ¬ m = n) : assocGet (fsWrite l n c) m = assocGet l m := by
  have hn : ¬ n = m := fun hc => h hc.symm
  simp [fsWrite, assocGet, hn]
  exact assocGet_remove_other l n m h

/-! ### Decimal rendering lemmas -/

theorem digitVal_digitChar : ∀ n, n < 10 → digitVal (digitChar n) = n := by decide

theorem chVal_append_digit (l : List Char) (c : Char) :
    chVal (l ++ [c]) = 10 * chVal l + digitVal c := by
  simp [chVal, List.foldl_append]

theorem natCharsF_eval : ∀ fuel n, n ≤ fuel → chVal (natCharsF fuel n) = n := by
  intro fuel
  induction fuel with
  | zero =>
    intro n hn
    interval_cases n
    simp [natCharsF, chVal, digitVal_digitChar]
  | succ fuel ih =>
    intro n hn
    by_cases h : n < 10
    · simp [natCharsF, h, chVal]
      have := digitVal_digitChar n h
      simpa [chVal] using this
    · have hd : n / 10 ≤ fuel := by
        have : n / 10 < n := Nat.div_lt_self (by omega) (by omega)
        omega
      simp only [natCharsF, if_neg h]
      rw [chVal_append_digit, ih _ hd, digitVal_digitChar _ (Nat.mod_lt _ (by omega))]
      omega

theorem chVal_natChars (n : Nat) : chVal (natChars n) = n :=
  natCharsF_eval n n (Nat.le_refl n)

theorem natChars_inj {m n : Nat} (h : natChars m = natChars n) : m = n := by
  have hm := chVal_natChars m
  have hn := chVal_natChars n
  rw [h] at hm
  omega

theorem genName_inj {m n : Nat} (h : genName m = genName n) : m = n := by
  unfold genName at h
  exact natChars_inj (List.append_cancel_left h)

theorem genName_ne_manifest (i : Nat) : ¬ genName i = manifestName := by
  intro h
  have h21 : genStem.length = 21 := by decide
  have := congrArg (List.take 21) h
  rw [show (21 : Nat) = genStem.length from h21.symm] at this
  rw [genName, List.take_left] at this
  rw [h21] at this
  exact absurd this (by decide)

/-! ### The generational write keeps the generation-file invariant -/

theorem idx_append {α : Type} (l : List α) (x : α) :
    ∀ s, idx (l ++ [x]) s = idx l s ++ [(s + l.length, x)] := by
  induction l with
  | nil => intro s; simp [idx]
  | cons y rest ih =>
    intro s
    show (s, y) :: idx (rest ++ [x]) (s + 1) =
      (s, y) :: (idx rest (s + 1) ++ [(s + (rest.length + 1), x)])
    rw [ih (s + 1)]
    have harith : s + 1 + rest.length = s + (rest.length + 1) := by omega
    rw [harith]

theorem truncStepF_noop : ∀ fuel od f m, od.length ≤ m → truncStepF fuel od f m = (od, f) := by
  intro fuel
  cases fuel with
  | zero => intro od f m _; rfl
  | succ fuel => intro od f m h; simp [truncStepF, Nat.not_lt.mpr h]

theorem truncStep_noop (od : List ContentGeneration) (f : Files) (m : Nat)
    (h : od.length ≤ m) : truncStep od f m = (od, f) :=
  truncStepF_noop od.length od f m h

theorem promoteLoop_spec (lz4 : Bytes → Bytes) (enc : Encoding) :
    ∀ gs : List ContentGeneration, ¬ gs = [] → ∀ f q,
    (∀ i, i < gs.length → hasRaw f (genName i)) →
    ∃ f2, promoteLoop lz4 enc (idx gs 0).reverse f q = .ok (f2, gs ++ q) ∧
      (∀ i, 1 ≤ i → i ≤ gs.length → hasRaw f2 (genName i)) ∧
      (∀ n, (∀ i, i ≤ gs.length → ¬ n = genName i) → assocGet f2 n = assocGet f n) ∧
      (enc = .plain → assocGet f2 (genName 0) = none) ∧
      (¬ enc = .plain → assocGet f2 (genName 0) = assocGet f (genName 0)) := by
  intro gs
  induction gs using List.reverseRecOn with
  | nil => intro h; exact absurd rfl h
  | append_singleton gs' x ih =>
    intro _ f q pre
    rw [idx_append, List.reverse_append]
    simp only [List.reverse_cons, List.reverse_nil, List.nil_append, List.singleton_append,
      Nat.zero_add]
    rcases List.eq_nil_or_concat gs' with hnil | _
    · -- a single retained generation, promoted at index 0
      subst hnil
      simp only [List.length_nil]
      obtain ⟨b, hb⟩ := pre 0 (by simp)
      by_cases henc : enc = .plain
      · -- rename generation-0 to generation-1
        refine ⟨fsWrite (assocRemove f (genName 0)) (genName 1) (.raw b), ?_, ?_, ?_, ?_, ?_⟩
        · simp [promoteLoop, henc, hb, idx]
        · intro i h1 h2
          have h2' : i ≤ 1 := by simpa using h2
          have : i = 1 := by omega
          subst this
          exact ⟨b, assocGet_write_self _ _ _⟩
        · intro n hn
          rw [assocGet_write_other _ _ _ _ (hn 1 (by simp)),
            assocGet_remove_other _ _ _ (hn 0 (by simp))]
        · intro _
          rw [assocGet_write_other _ _ _ _ (fun hc => by have := genName_inj hc; omega)]
          exact assocGet_remove_self _ _
        · intro hc; exact absurd henc hc
      · -- re-encode generation-0 into generation-1, the source stays
        refine ⟨fsWrite f (genName 1) (.raw (encodeBytes lz4 enc b)), ?_, ?_, ?_, ?_, ?_⟩
        · simp [promoteLoop, henc, hb, idx]
        · intro i h1 h2
          have h2' : i ≤ 1 := by simpa using h2
          have : i = 1 := by omega
          subst this
          exact ⟨_, assocGet_write_self _ _ _⟩
        · intro n hn
          rw [assocGet_write_other _ _ _ _ (hn 1 (by simp))]
        · intro hc; exact absurd hc henc
        · intro _
          rw [assocGet_write_other _ _ _ _ (fun hc => by
            have := genName_inj hc; omega)]
    · -- the highest retained index is renamed first, then the rest
      have hlen : 0 < gs'.length := by
        rcases gs' with _ | _
        · rename_i hcon
          obtain ⟨_, _, hco⟩ := hcon
          exact absurd hco (by simp)
        · simp
      obtain ⟨b, hb⟩ := pre gs'.length (by simp)
      have hne0 : ¬ gs'.length = 0 := by omega
      have hstep :
          promoteLoop lz4 enc ((gs'.length, x) :: (idx gs' 0).reverse) f q =
          promoteLoop lz4 enc (idx gs' 0).reverse
            (fsWrite (assocRemove f (genName gs'.length))
              (genName (gs'.length + 1)) (.raw b)) (x :: q) := by
        simp [promoteLoop, hne0, hb]
      set f1 := fsWrite (assocRemove f (genName gs'.length))
        (genName (gs'.length + 1)) (.raw b) with hf1
      have pre1 : ∀ i, i < gs'.length → hasRaw f1 (genName i) := by
        intro i hi
        obtain ⟨bi, hbi⟩ := pre i (by simp; omega)
        refine ⟨bi, ?_⟩
        rw [hf1, assocGet_write_other _ _ _ _ (fun hc => by have := genName_inj hc; omega),
          assocGet_remove_other _ _ _ (fun hc => by have := genName_inj hc; omega)]
        exact hbi
      obtain ⟨f2, hloop, hgens, huntouched, hg0p, hg0e⟩ :=
        ih (by intro hc; subst hc; simp at hlen) f1 (x :: q) pre1
      refine ⟨f2, ?_, ?_, ?_, ?_, ?_⟩
      · rw [hstep, hloop]; simp
      · intro i h1 h2
        simp only [List.length_append, List.length_singleton] at h2
        by_cases hle : i ≤ gs'.length
        · exact hgens i h1 hle
        · have hieq : i = gs'.length + 1 := by omega
          subst hieq
          have hbb : assocGet f2 (genName (gs'.length + 1)) =
              assocGet f1 (genName (gs'.length + 1)) :=
            huntouched _ (fun j hj hc => by have := genName_inj hc; omega)
          refine ⟨b, ?_⟩
          rw [hbb, hf1, assocGet_write_self]
      · intro n hn
        simp only [List.length_append, List.length_singleton] at hn
        rw [huntouched n (fun j hj => hn j (by omega)), hf1,
          assocGet_write_other _ _ _ _ (hn (gs'.length + 1) (by omega)),
          assocGet_remove_other _ _ _ (hn gs'.length (by omega))]
      · intro hpl
        exact hg0p hpl
      · intro hpl
        rw [hg0e hpl, hf1,
          assocGet_write_other _ _ _ _ (fun hc => by have := genName_inj hc; omega),
          assocGet_remove_other _ _ _ (fun hc => by have := genName_inj hc; omega)]

theorem generationalWrite_spec (lz4 : Bytes → Bytes) (e : DirCacheEntry) (f : Files)
    (data : Bytes) (enc : Encoding) (M now : Nat) (h1 : 1 ≤ M)
    (hlen : e.on_disk.length ≤ M) (hinv : GenInv f e.on_disk.length) :
    ∃ f2, generationalWrite e f data enc M now lz4 =
        .ok ({ e with
          on_disk := ⟨.plain, now⟩ :: e.on_disk.take (M - 1),
          last_updated := now }, f2) ∧
      GenInv f2 (min e.on_disk.length (M - 1) + 1) := by
  have htr := truncStep_noop e.on_disk f M hlen
  have hk : (e.on_disk.take (M - 1)).length = min (M - 1) e.on_disk.length := by
    simp [List.length_take]
  by_cases hnil : e.on_disk.take (M - 1) = []
  · -- nothing to promote: `M = 1` or an empty record list
    have hmin0 : min (M - 1) e.on_disk.length = 0 := by rw [← hk, hnil]; rfl
    have hlen1 : e.on_disk.length ≤ 1 := by
      rcases Nat.min_eq_zero_iff.mp hmin0 with hm | hl <;> omega
    refine ⟨dumpMetadataF [⟨.plain, now⟩] (fsWrite f (genName 0) (.raw data)), ?_, ?_, ?_⟩
    · simp only [generationalWrite, htr, hnil, idx, List.reverse_nil, promoteLoop]
    · intro i
      rw [min_comm, hmin0]
      constructor
      · intro ⟨b, hb⟩
        by_cases hi : i = 0
        · omega
        · rw [dumpMetadataF, assocGet_write_other _ _ _ _ (genName_ne_manifest i),
            assocGet_write_other _ _ _ _ (fun hc => by have := genName_inj hc; omega)] at hb
          have := (hinv.1 i).mp ⟨b, hb⟩
          omega
      · intro hi
        have hi0 : i = 0 := by omega
        subst hi0
        refine ⟨data, ?_⟩
        rw [dumpMetadataF, assocGet_write_other _ _ _ _ (genName_ne_manifest 0),
          assocGet_write_self]
    · intro n c hc
      rw [min_comm, hmin0]
      by_cases hman : n = manifestName
      · exact Or.inl hman
      · rw [dumpMetadataF, assocGet_write_other _ _ _ _ hman] at hc
        by_cases hg0 : n = genName 0
        · exact Or.inr ⟨0, by omega, hg0⟩
        · rw [assocGet_write_other _ _ _ _ hg0] at hc
          rcases hinv.2 n c hc with h | ⟨i, hilt, hni⟩
          · exact Or.inl h
          · have : i = 0 := by omega
            subst this
            exact absurd hni hg0
  · -- promote the retained generations, then write the new head
    have pre : ∀ i, i < (e.on_disk.take (M - 1)).length → hasRaw f (genName i) := by
      intro i hi
      apply (hinv.1 i).mpr
      have := Nat.min_le_right (M - 1) e.on_disk.length
      omega
    obtain ⟨f2, hloop, hgens, huntouched, hg0p, hg0e⟩ :=
      promoteLoop_spec lz4 enc (e.on_disk.take (M - 1)) hnil f [] pre
    have hkk : min e.on_disk.length (M - 1) = (e.on_disk.take (M - 1)).length := by
      rw [hk, min_comm]
    have hkle : (e.on_disk.take (M - 1)).length ≤ e.on_disk.length := by
      rw [hk]; exact Nat.min_le_right _ _
    have hlek : e.on_disk.length ≤ (e.on_disk.take (M - 1)).length + 1 := by
      rw [hk]
      rcases Nat.le_total (M - 1) e.on_disk.length with h | h
      · rw [Nat.min_eq_left h]; omega
      · rw [Nat.min_eq_right h]; omega
    refine ⟨dumpMetadataF (⟨.plain, now⟩ :: e.on_disk.take (M - 1))
      (fsWrite f2 (genName 0) (.raw data)), ?_, ?_, ?_⟩
    · simp only [generationalWrite, htr]
      rw [hloop]
      simp
    · intro i
      rw [hkk]
      by_cases hi0 : i = 0
      · subst hi0
        constructor
        · intro _; omega
        · intro _
          refine ⟨data, ?_⟩
          rw [dumpMetadataF, assocGet_write_other _ _ _ _ (genName_ne_manifest 0),
            assocGet_write_self]
      · have htrans : assocGet (dumpMetadataF (⟨.plain, now⟩ :: e.on_disk.take (M - 1))
            (fsWrite f2 (genName 0) (.raw data))) (genName i) = assocGet f2 (genName i) := by
          rw [dumpMetadataF, assocGet_write_other _ _ _ _ (genName_ne_manifest i),
            assocGet_write_other _ _ _ _ (fun hcc => by have := genName_inj hcc; omega)]
        rw [hasRaw, htrans]
        by_cases hile : i ≤ (e.on_disk.take (M - 1)).length
        · constructor
          · intro _; omega
          · intro _; exact hgens i (by omega) hile
        · constructor
          · intro ⟨b, hb⟩
            rw [huntouched _ (fun j hj hcc => by have := genName_inj hcc; omega)] at hb
            have := (hinv.1 i).mp ⟨b, hb⟩
            omega
          · intro hcon; omega
    · intro n c hc
      rw [hkk]
      by_cases hman : n = manifestName
      · exact Or.inl hman
      · rw [dumpMetadataF, assocGet_write_other _ _ _ _ hman] at hc
        by_cases hg0 : n = genName 0
        · exact Or.inr ⟨0, by omega, hg0⟩
        · rw [assocGet_write_other _ _ _ _ hg0] at hc
          by_cases hx : ∃ j, j ≤ (e.on_disk.take (M - 1)).length ∧ n = genName j
          · obtain ⟨j, hj, hnj⟩ := hx
            exact Or.inr ⟨j, by omega, hnj⟩
          · push_neg at hx
            rw [huntouched n (fun j hj => hx j hj)] at hc
            rcases hinv.2 n c hc with h | ⟨i, hilt, hni⟩
            · exact Or.inl h
            · exact absurd hni (hx i (by omega))

theorem runWrite_writer_spec (lz4 : Bytes → Bytes) (e : DirCacheEntry) (dir : Option DirM)
    (content : Bytes) (push : MemPushOpt) (g : GenerationOpt) (now : Nat)
    (hpush : ¬ push = .memoryOnly) (hM : 1 ≤ g.max_generations)
    (hlen : e.on_disk.length ≤ g.max_generations)
    (hinv : GenInv (ensureDir dir).files e.on_disk.length) :
    ∃ e1 d1, runDirCacheEntryWrite e dir content push g now lz4 = .ok (e1, some d1) ∧
      e1.on_disk.length ≤ g.max_generations ∧ GenInv d1.files e1.on_disk.length := by
  have hmin : min e.on_disk.length (g.max_generations - 1) + 1 ≤ g.max_generations := by
    have := Nat.min_le_right e.on_disk.length (g.max_generations - 1)
    omega
  have hlentake :
      (⟨Encoding.plain, now⟩ :: e.on_disk.take (g.max_generations - 1)).length =
      min e.on_disk.length (g.max_generations - 1) + 1 := by
    simp [List.length_take, min_comm]
  cases push with
  | memoryOnly => exact absurd rfl hpush
  | retainAndWrite =>
    obtain ⟨f2, heq, hg⟩ := generationalWrite_spec lz4 e (ensureDir dir).files content
      g.old_gen_encoding g.max_generations now hM hlen hinv
    refine ⟨{ e with
        in_mem := some ⟨true, content⟩,
        on_disk := ⟨Encoding.plain, now⟩ :: e.on_disk.take (g.max_generations - 1),
        last_updated := now },
      { ensureDir dir with files := f2 }, ?_, ?_, ?_⟩
    · simp only [runDirCacheEntryWrite, heq]
    · simp only [List.length_cons, List.length_take]
      omega
    · simpa [List.length_take, Nat.min_comm] using hg
  | passthroughWrite =>
    obtain ⟨f2, heq, hg⟩ := generationalWrite_spec lz4 { e with in_mem := none }
      (ensureDir dir).files content g.old_gen_encoding g.max_generations now hM hlen hinv
    refine ⟨{ e with
        in_mem := none,
        on_disk := ⟨Encoding.plain, now⟩ :: e.on_disk.take (g.max_generations - 1),
        last_updated := now },
      { ensureDir dir with files := f2 }, ?_, ?_, ?_⟩
    · simp only [runDirCacheEntryWrite, heq]
    · simp only [List.length_cons, List.length_take]
      omega
    · simpa [List.length_take, Nat.min_comm] using hg

theorem insertOpt_writer_spec (lz4 : Bytes → Bytes) (ste : Option DirCacheEntry)
    (std : Option DirM) (s : InsStep) (M : Nat) (hM : 1 ≤ M)
    (hGen : s.g.max_generations = M) (hpush : ¬ s.push = .memoryOnly)
    (hinv : StInv M (ste, std)) :
    ∃ e1 d1, insertOpt ste std s.data s.push s.g s.now lz4 = .ok (e1, some d1) ∧
      StInv M (some e1, some d1) := by
  rcases hinv with ⟨h1, h2⟩ | ⟨e, d, h1, h2, hle, hgi⟩
  · simp only at h1 h2
    subst h1; subst h2
    have hinv0 : GenInv (ensureDir none).files newEntry.on_disk.length := by
      constructor
      · intro i
        constructor
        · intro ⟨b, hb⟩; simp [ensureDir, assocGet] at hb
        · intro hi; simp [newEntry] at hi
      · intro n c hc; simp [ensureDir, assocGet] at hc
    obtain ⟨e1, d1, heq, hle1, hgi1⟩ := runWrite_writer_spec lz4 newEntry none s.data s.push
      s.g s.now hpush (by omega) (by simp [newEntry]) hinv0
    exact ⟨e1, d1, by simpa [insertOpt, hGen] using heq,
      Or.inr ⟨e1, d1, rfl, rfl, by omega, hgi1⟩⟩
  · simp only at h1 h2
    subst h1; subst h2
    have hinvd : GenInv (ensureDir (some d)).files e.on_disk.length := by
      simpa [ensureDir] using hgi
    obtain ⟨e1, d1, heq, hle1, hgi1⟩ := runWrite_writer_spec lz4 e (some d) s.data s.push
      s.g s.now hpush (by omega) (by omega) hinvd
    exact ⟨e1, d1, by simpa [insertOpt, hGen] using heq,
      Or.inr ⟨e1, d1, rfl, rfl, by omega, hgi1⟩⟩

theorem insertSeq_inv (lz4 : Bytes → Bytes) (M : Nat) (hM : 1 ≤ M) :
    ∀ steps : List InsStep, ∀ st n,
    (∀ s ∈ steps, s.g.max_generations = M ∧ ¬ s.push = .memoryOnly) →
    StInv M st →
    ∃ st2, insertSeq lz4 (steps.take n) st = .ok st2 ∧ StInv M st2 := by
  intro steps
  induction steps with
  | nil =>
    intro st n _ hinv
    exact ⟨st, by cases n <;> simp [insertSeq], hinv⟩
  | cons s rest ih =>
    intro st n hall hinv
    obtain ⟨ste, std⟩ := st
    cases n with
    | zero => exact ⟨(ste, std), by simp [insertSeq], hinv⟩
    | succ m =>
      obtain ⟨hgen, hpush⟩ := hall s (by simp)
      obtain ⟨e1, d1, heq, hinv1⟩ :=
        insertOpt_writer_spec lz4 ste std s M hM hgen hpush hinv
      obtain ⟨st2, hseq, hinv2⟩ :=
        ih (some e1, some d1) m (fun s' hs' => hall s' (by simp [hs'])) hinv1
      refine ⟨st2, ?_, hinv2⟩
      simp only [List.take_succ_cons, insertSeq, heq]
      exact hseq

/-! ### Lemmas about manifest reading (`read_metadata` / `read_from_dir`) -/

theorem parseLinesAcc_ok : ∀ (ls : List (List Char)) (acc r : List (Nat × Encoding)),
    parseLinesAcc ls acc = .ok r →
    ∃ gs, linesParsed ls = .ok gs ∧ r = gs.reverse ++ acc := by
  intro ls
  induction ls with
  | nil =>
    intro acc r h
    refine ⟨[], rfl, ?_⟩
    simpa [parseLinesAcc] using h.symm
  | cons l rest ih =>
    intro acc r h
    simp only [parseLinesAcc] at h
    rcases hl : parseLine l with el | gl
    · rw [hl] at h; exact absurd h (by simp)
    · rw [hl] at h
      obtain ⟨gs, hmap, hr⟩ := ih (gl :: acc) r h
      refine ⟨gl :: gs, ?_, ?_⟩
      · simp [linesParsed, hl, hmap]
      · simp [hr]

/-- The generation loop at indices ≥ 1 with no expired record: nothing is
removed, every record is appended in order, and neither `last_updated` nor
the memory slot changes. -/
theorem rfdGo_fresh (eager : Bool) (g : GenerationOpt) (now : Nat) :
    ∀ l : List (Nat × Encoding), ∀ ind f im od lu, 1 ≤ ind →
    (∀ p ∈ l, ¬ satAdd p.1 g.expiration.asDur ≤ now) →
    rfdGo eager g now l ind f im od lu =
      .ok (f, im, od ++ l.map (fun p => ⟨p.2, p.1⟩), lu) := by
  intro l
  induction l with
  | nil => intro ind f im od lu _ _; simp [rfdGo]
  | cons p rest ih =>
    intro ind f im od lu hind hfresh
    obtain ⟨age, enc⟩ := p
    have hfr := hfresh (age, enc) (by simp)
    simp only [rfdGo, if_neg hfr, if_neg (by omega : ¬ ind = 0)]
    calc rfdGo eager g now rest (ind + 1) f im (od ++ [{ encoding := enc, age := age }]) lu
        = .ok (f, im, (od ++ [{ encoding := enc, age := age }]) ++
            List.map (fun p => { encoding := p.2, age := p.1 }) rest, lu) :=
          ih (ind + 1) f im _ lu (by omega) (fun q hq => hfresh q (by simp [hq]))
      _ = .ok (f, im, od ++
            List.map (fun p => { encoding := p.2, age := p.1 }) ((age, enc) :: rest), lu) := by
          simp

/-- `read_from_dir` on a manifest whose parsed (reversed) generation list
is non-empty and entirely unexpired: the entry mirrors that reversed list,
and `last_updated` is the age of its head, i.e. of the manifest's **last**
line. -/
theorem readFromDir_fresh (d : DirM) (g : GenerationOpt) (now : Nat)
    (gens : List (Nat × Encoding))
    (hmani : readMetadata d.files = .ok (some (manifestVersion, gens)))
    (hne : ¬ gens = [])
    (hfresh : ∀ p ∈ gens, ¬ satAdd p.1 g.expiration.asDur ≤ now) :
    ∃ g0 gtl, gens = g0 :: gtl ∧
      readFromDir d false g now =
        .ok (some ⟨none, gens.map (fun p => ⟨p.2, p.1⟩), g0.1⟩, d) := by
  obtain ⟨g0, gtl, hcons⟩ : ∃ g0 gtl, gens = g0 :: gtl := by
    cases gens with
    | nil => exact absurd rfl hne
    | cons a b => exact ⟨a, b, rfl⟩
  subst hcons
  refine ⟨g0, gtl, rfl, ?_⟩
  have hfr0 := hfresh g0 (by simp)
  have hloop : rfdGo false g now (g0 :: gtl) 0 d.files none [] none =
      .ok (d.files, none, (g0 :: gtl).map (fun p => ⟨p.2, p.1⟩), some g0.1) := by
    simp only [rfdGo, if_neg hfr0, if_pos rfl]
    have htail := rfdGo_fresh false g now gtl 1 d.files none
      [{ encoding := g0.2, age := g0.1 }] (some g0.1) (by omega)
      (fun q hq => hfresh q (by simp [hq]))
    simpa using htail
  simp [readFromDir, hmani, hloop]

/-! ### Lemmas about `relativize` and the open-time scan -/

theorem relLoop_self : ∀ l : List PComp, relLoop l l = .error .pathRelativize := by
  intro l
  induction l with
  | nil => rfl
  | cons a rest ih => simp [relLoop, ih]

theorem relativize_self (p : FName) : relativize p p = .error .pathRelativize := by
  simp [relativize, relLoop_self]

/-! ### Lemmas about separator splitting (towards `safe_join`) -/

theorem splitSlash_ne_nil : ∀ s : List Char, ¬ splitSlash s = [] := by
  intro s
  induction s with
  | nil => simp [splitSlash]
  | cons c rest ih =>
    by_cases h : c = '/'
    · simp [splitSlash, h]
    · simp only [splitSlash, if_neg h]
      rcases hsp : splitSlash rest with _ | ⟨p, ps⟩
      · simp
      · simp

theorem joinSep_splitSlash : ∀ s : List Char, joinSep (splitSlash s) = s := by
  intro s
  induction s with
  | nil => rfl
  | cons c rest ih =>
    by_cases h : c = '/'
    · subst h
      simp only [splitSlash, if_pos rfl]
      rcases hsp : splitSlash rest with _ | ⟨p, ps⟩
      · exact absurd hsp (splitSlash_ne_nil rest)
      · rw [hsp] at ih
        simp only [joinSep]
        rw [ih]
        simp
    · simp only [splitSlash, if_neg h]
      rcases hsp : splitSlash rest with _ | ⟨p, ps⟩
      · exact absurd hsp (splitSlash_ne_nil rest)
      · rw [hsp] at ih
        cases ps with
        | nil => simp only [joinSep] at ih ⊢; rw [ih]
        | cons p2 ps2 =>
          simp only [joinSep] at ih ⊢
          rw [List.cons_append, ih]

theorem splitSlash_no_sep : ∀ s : List Char, ∀ p ∈ splitSlash s, ¬ '/' ∈ p := by
  intro s
  induction s with
  | nil => intro p hp; simp [splitSlash] at hp; simp [hp]
  | cons c rest ih =>
    intro p hp
    by_cases h : c = '/'
    · simp only [splitSlash, if_pos h, List.mem_cons] at hp
      rcases hp with hp | hp
      · simp [hp]
      · exact ih p hp
    · simp only [splitSlash, if_neg h] at hp
      rcases hsp : splitSlash rest with _ | ⟨q, qs⟩
      · exact absurd hsp (splitSlash_ne_nil rest)
      · rw [hsp] at hp
        simp only [List.mem_cons] at hp
        rcases hp with hp | hp
        · subst hp
          intro hmem
          simp only [List.mem_cons] at hmem
          rcases hmem with hc | hc
          · exact h hc.symm
          · exact ih q (by rw [hsp]; simp) hc
        · exact ih p (by rw [hsp]; simp [hp])

theorem splitSlash_of_no_sep : ∀ p : List Char, ¬ '/' ∈ p → splitSlash p = [p] := by
  intro p
  induction p with
  | nil => intro _; rfl
  | cons c rest ih =>
    intro h
    have hc : ¬ c = '/' := fun hcc => h (by simp [hcc])
    have hrest : ¬ '/' ∈ rest := fun hm => h (by simp [hm])
    simp only [splitSlash, if_neg hc, ih hrest]

theorem splitSlash_sep_append : ∀ (c : List Char) (t : List Char), ¬ '/' ∈ c →
    splitSlash (c ++ '/' :: t) = c :: splitSlash t := by
  intro c
  induction c with
  | nil => intro t _; simp [splitSlash]
  | cons x rest ih =>
    intro t h
    have hx : ¬ x = '/' := fun hcc => h (by simp [hcc])
    have hrest : ¬ '/' ∈ rest := fun hm => h (by simp [hm])
    have hih := ih t hrest
    simp only [List.cons_append, splitSlash, if_neg hx]
    have hih2 : splitSlash (rest.append ('/' :: t)) = rest :: splitSlash t := hih
    rw [hih2]

theorem splitSlash_joinSep : ∀ cs : List (List Char), ¬ cs = [] →
    (∀ c ∈ cs, ¬ '/' ∈ c) → splitSlash (joinSep cs) = cs := by
  intro cs
  induction cs with
  | nil => intro h _; exact absurd rfl h
  | cons c rest ih =>
    intro _ hns
    cases rest with
    | nil =>
      simp only [joinSep]
      exact splitSlash_of_no_sep c (hns c (by simp))
    | cons c2 rest2 =>
      show splitSlash (c ++ '/' :: joinSep (c2 :: rest2)) = c :: c2 :: rest2
      rw [splitSlash_sep_append c _ (hns c (by simp))]
      rw [ih (by simp) (fun q hq => hns q (by simp [hq]))]

theorem length_splitSlash : ∀ s : List Char,
    s.length + 1 = ((splitSlash s).map List.length).sum + (splitSlash s).length := by
  intro s
  induction s with
  | nil => rfl
  | cons c rest ih =>
    by_cases h : c = '/'
    · simp only [splitSlash, if_pos h, List.map_cons, List.length_cons, List.sum_cons,
        List.length_nil]
      omega
    · simp only [splitSlash, if_neg h]
      rcases hsp : splitSlash rest with _ | ⟨q, qs⟩
      · exact absurd hsp (splitSlash_ne_nil rest)
      · rw [hsp] at ih
        simp only [List.map_cons, List.sum_cons, List.length_cons] at ih ⊢
        omega

theorem length_joinSep : ∀ cs : List (List Char), ¬ cs = [] →
    (joinSep cs).length + 1 = (cs.map List.length).sum + cs.length := by
  intro cs
  induction cs with
  | nil => intro h; exact absurd rfl h
  | cons c rest ih =>
    intro _
    cases rest with
    | nil => simp [joinSep]
    | cons c2 rest2 =>
      have := ih (by simp)
      show (c ++ '/' :: joinSep (c2 :: rest2)).length + 1 = _
      simp only [List.length_append, List.length_cons, List.map_cons, List.sum_cons] at this ⊢
      omega

theorem sum_filter_nonempty (l : List (List Char)) :
    ((l.filter (fun p => ¬ p = [])).map List.length).sum = (l.map List.length).sum := by
  induction l with
  | nil => rfl
  | cons p rest ih =>
    by_cases h : p = []
    · subst h
      simpa [List.filter_cons] using ih
    · simp [List.filter_cons, h] at ih ⊢
      omega

theorem length_filter_count (l : List (List Char)) :
    l.length = (l.filter (fun p => ¬ p = [])).length + l.countP (fun p => decide (p = [])) := by
  induction l with
  | nil => rfl
  | cons p rest ih =>
    by_cases h : p = []
    · simp [List.filter_cons, List.countP_cons, h] at ih ⊢
      omega
    · simp [List.filter_cons, List.countP_cons, h] at ih ⊢
      omega

theorem pieceComp_normal (q : List Char) (h1 : ¬ q = ['.']) (h2 : ¬ q = ['.', '.']) :
    pieceComp q = .normal q := by
  simp [pieceComp, h1, h2]

theorem pieceComp_not_dots (q : List Char) (h : isNormalB (pieceComp q) = true) :
    ¬ q = ['.'] ∧ ¬ q = ['.', '.'] := by
  constructor
  · intro hc; subst hc; simp [pieceComp, isNormalB] at h
  · intro hc; subst hc; simp [pieceComp, isNormalB] at h

theorem tail_count (rest : List (List Char))
    (hd : ∀ q ∈ rest, q = ['.'] ∨ (¬ q = ['.'] ∧ ¬ q = ['.', '.'])) :
    ((rest.filterMap (fun q => if q = ['.'] then none else some (pieceComp q))).map
        normLen).sum + rest.countP (fun q => decide (q = ['.'])) =
      (rest.map List.length).sum ∧
    (rest.filterMap (fun q => if q = ['.'] then none else some (pieceComp q))).length +
        rest.countP (fun q => decide (q = ['.'])) = rest.length := by
  induction rest with
  | nil => simp
  | cons q rest ih =>
    have ihh := ih (fun r hr => hd r (by simp [hr]))
    rcases hd q (by simp) with hdot | ⟨hnd, hndd⟩
    · subst hdot
      have h1 : ((['.'] :: rest).filterMap
            (fun q => if q = ['.'] then none else some (pieceComp q))) =
          rest.filterMap (fun q => if q = ['.'] then none else some (pieceComp q)) := by
        simp [List.filterMap_cons]
      have h2 : (['.'] :: rest).countP (fun q => decide (q = ['.'])) =
          rest.countP (fun q => decide (q = ['.'])) + 1 := by
        simp [List.countP_cons]
      have h3 : (((['.'] : List Char) :: rest).map List.length).sum =
          1 + (rest.map List.length).sum := by
        simp
      rw [h1, h2, h3, List.length_cons]
      constructor <;> omega
    · have h1 : ((q :: rest).filterMap
            (fun q => if q = ['.'] then none else some (pieceComp q))) =
          PComp.normal q ::
            rest.filterMap (fun q => if q = ['.'] then none else some (pieceComp q)) := by
        simp [List.filterMap_cons, hnd, pieceComp_normal q hnd hndd]
      have h2 : (q :: rest).countP (fun q => decide (q = ['.'])) =
          rest.countP (fun q => decide (q = ['.'])) := by
        simp [List.countP_cons, hnd]
      have h3 : ((q :: rest).map List.length).sum =
          q.length + (rest.map List.length).sum := by
        simp
      rw [h1, h2, h3, List.length_cons]
      simp only [List.map_cons, List.sum_cons, List.length_cons, normLen]
      constructor <;> omega

theorem filterMap_normal (rest : List (List Char))
    (hd : ∀ q ∈ rest, ¬ q = ['.'] ∧ ¬ q = ['.', '.']) :
    rest.filterMap (fun q => if q = ['.'] then none else some (pieceComp q)) =
      rest.map PComp.normal := by
  induction rest with
  | nil => rfl
  | cons q rest ih =>
    obtain ⟨h1, h2⟩ := hd q (by simp)
    simp only [List.filterMap_cons, if_neg h1, pieceComp_normal q h1 h2, List.map_cons]
    rw [ih (fun r hr => hd r (by simp [hr]))]

theorem concat_characterization (key : List Char) :
    ((∀ c ∈ pathComponentsRel key, isNormalB c = true) ∧
     ¬ ((pathComponentsRel key).map normLen).sum = 0 ∧
     ((pathComponentsRel key).map normLen).sum + (pathComponentsRel key).length - 1 =
       key.length) ↔ IsExactConcat key := by
  constructor
  · rintro ⟨hall, hcum, heq⟩
    rcases hfil : (splitSlash key).filter (fun p => ¬ p = []) with _ | ⟨p0, rest⟩
    · rw [pathComponentsRel, hfil] at hcum
      simp at hcum
    · have hcomps : pathComponentsRel key =
          pieceComp p0 :: rest.filterMap
            (fun q => if q = ['.'] then none else some (pieceComp q)) := by
        rw [pathComponentsRel, hfil]
      have hp0n : isNormalB (pieceComp p0) = true := by
        apply hall; rw [hcomps]; simp
      obtain ⟨hp0d, hp0dd⟩ := pieceComp_not_dots p0 hp0n
      have hdich : ∀ q ∈ rest, q = ['.'] ∨ (¬ q = ['.'] ∧ ¬ q = ['.', '.']) := by
        intro q hq
        by_cases hqd : q = ['.']
        · exact Or.inl hqd
        · refine Or.inr ⟨hqd, ?_⟩
          have hmem : pieceComp q ∈ pathComponentsRel key := by
            rw [hcomps]
            right
            exact List.mem_filterMap.mpr ⟨q, hq, by rw [if_neg hqd]⟩
          exact (pieceComp_not_dots q (hall _ hmem)).2
      obtain ⟨hsum, hcount⟩ := tail_count rest hdich
      have hS4 := length_splitSlash key
      have hF1 := sum_filter_nonempty (splitSlash key)
      have hF2 := length_filter_count (splitSlash key)
      rw [hfil] at hF1 hF2
      simp only [List.length_cons] at hF2
      rw [hcomps] at hcum heq
      rw [pieceComp_normal p0 hp0d hp0dd] at hcum heq
      simp only [List.map_cons, List.sum_cons, List.length_cons, normLen] at hcum heq
      simp only [List.map_cons, List.sum_cons, List.length_cons] at hF1
      have hdots : rest.countP (fun q => decide (q = ['.'])) = 0 ∧
          (splitSlash key).countP (fun p => decide (p = [])) = 0 := by
        constructor <;> omega
      have hnoempty : ∀ p ∈ splitSlash key, ¬ p = [] := by
        intro p hp
        have := List.countP_eq_zero.mp hdots.2 p hp
        simpa using this
      have hfiltereq : (splitSlash key).filter (fun p => ¬ p = []) = splitSlash key := by
        apply List.filter_eq_self.mpr
        intro a ha
        simpa using hnoempty a ha
      have hpieces : splitSlash key = p0 :: rest := by rw [← hfiltereq, hfil]
      have hnodot : ∀ q ∈ rest, ¬ q = ['.'] ∧ ¬ q = ['.', '.'] := by
        intro q hq
        rcases hdich q hq with hdot | hok
        · exact absurd ((List.countP_eq_zero.mp hdots.1 q hq))
            (by simp [hdot])
        · exact hok
      refine ⟨p0 :: rest, by simp, ?_, ?_⟩
      · intro c hc
        rcases List.mem_cons.mp hc with hc0 | hcr
        · subst hc0
          exact ⟨hnoempty c (by rw [hpieces]; simp),
            splitSlash_no_sep key c (by rw [hpieces]; simp), hp0d, hp0dd⟩
        · exact ⟨hnoempty c (by rw [hpieces]; simp [hcr]),
            splitSlash_no_sep key c (by rw [hpieces]; simp [hcr]),
            (hnodot c hcr).1, (hnodot c hcr).2⟩
      · rw [← hpieces, joinSep_splitSlash]
  · rintro ⟨cs, hne, hnorm, hkey⟩
    subst hkey
    obtain ⟨c0, crest, hcs⟩ : ∃ c0 crest, cs = c0 :: crest := by
      cases cs with
      | nil => exact absurd rfl hne
      | cons a b => exact ⟨a, b, rfl⟩
    subst hcs
    have hsplit : splitSlash (joinSep (c0 :: crest)) = c0 :: crest :=
      splitSlash_joinSep _ (by simp) (fun c hc => (hnorm c hc).2.1)
    have hfiltereq : (c0 :: crest).filter (fun p => ¬ p = []) = c0 :: crest := by
      apply List.filter_eq_self.mpr
      intro a ha
      simpa using (hnorm a ha).1
    have hcomps : pathComponentsRel (joinSep (c0 :: crest)) =
        (c0 :: crest).map PComp.normal := by
      rw [pathComponentsRel, hsplit, hfiltereq]
      show pieceComp c0 :: crest.filterMap
          (fun q => if q = ['.'] then none else some (pieceComp q)) =
        (c0 :: crest).map PComp.normal
      rw [pieceComp_normal c0 (hnorm c0 (by simp)).2.2.1 (hnorm c0 (by simp)).2.2.2]
      rw [filterMap_normal crest (fun q hq => ⟨(hnorm q (by simp [hq])).2.2.1,
        (hnorm q (by simp [hq])).2.2.2⟩)]
      simp
    have hlen := length_joinSep (c0 :: crest) (by simp)
    have hsummap : (((c0 :: crest).map PComp.normal).map normLen).sum =
        ((c0 :: crest).map List.length).sum := by
      rw [List.map_map]
      rfl
    refine ⟨?_, ?_, ?_⟩
    · intro c hc
      rw [hcomps] at hc
      obtain ⟨q, hq, hqe⟩ := List.mem_map.mp hc
      subst hqe
      rfl
    · rw [hcomps, hsummap]
      have hc0 : 0 < c0.length := by
        have := (hnorm c0 (by simp)).1
        cases c0 with
        | nil => exact absurd rfl this
        | cons a b => simp
      simp only [List.map_cons, List.sum_cons]
      omega
    · rw [hcomps, hsummap, List.length_map]
      simp only [List.length_cons] at hlen ⊢
      omega

theorem parseLinesAcc_of_linesParsed :
    ∀ (ls : List (List Char)) (gs : List (Nat × Encoding)) (acc : List (Nat × Encoding)),
    linesParsed ls = .ok gs → parseLinesAcc ls acc = .ok (gs.reverse ++ acc) := by
  intro ls
  induction ls with
  | nil =>
    intro gs acc h
    simp only [linesParsed] at h
    injection h with h
    subst h
    rfl
  | cons l rest ih =>
    intro gs acc h
    simp only [linesParsed] at h
    rcases hl : parseLine l with el | gl
    · rw [hl] at h; exact absurd h (by simp)
    · rw [hl] at h
      rcases hr : linesParsed rest with er | grest
      · rw [hr] at h; exact absurd h (by simp)
      · rw [hr] at h
        injection h with h
        subst h
        simp only [parseLinesAcc, hl]
        rw [ih grest (gl :: acc) hr]
        simp

/-- `generational_write` always ends by writing the new bytes to
`generation-0` and pushing a fresh `Plain` record at the head. -/
theorem generationalWrite_gen0 (lz4 : Bytes → Bytes) (e : DirCacheEntry) (f : Files)
    (data : Bytes) (enc : Encoding) (maxRem now : Nat) :
    ∀ e1 f1, generationalWrite e f data enc maxRem now lz4 = .ok (e1, f1) →
      assocGet f1 (genName 0) = some (.raw data) ∧
      e1.on_disk.head? = some ⟨.plain, now⟩ ∧ e1.last_updated = now ∧
      e1.in_mem = e.in_mem := by
  intro e1 f1 h
  simp only [generationalWrite] at h
  rcases hq : promoteLoop lz4 enc
      (idx ((truncStep e.on_disk f maxRem).1.take (maxRem - 1)) 0).reverse
      (truncStep e.on_disk f maxRem).2 [] with er | ⟨f2, q⟩
  · rw [hq] at h; exact absurd h (by simp)
  · rw [hq] at h
    injection h with h
    injection h with he hf
    subst he; subst hf
    refine ⟨?_, rfl, rfl, rfl⟩
    rw [dumpMetadataF, assocGet_write_other _ _ _ _ (genName_ne_manifest 0),
      assocGet_write_self]

/-- `dump_in_mem` on an already-committed in-memory value always drops
it. -/
theorem dumpInMem_committed (lz4 : Bytes → Bytes) (e : DirCacheEntry) (d : DirM)
    (keep : Bool) (kg : Nat) (enc : Encoding) (now : Nat) (m : InMemEntry)
    (hm : e.in_mem = some m) (hc : m.committed = true) :
    ∀ v1 d1, dumpInMem e d keep kg enc now lz4 = .ok (v1, d1) → v1.in_mem = none := by
  intro v1 d1 h
  simp only [dumpInMem, hm] at h
  rw [if_neg (by simp [hc])] at h
  injection h with h
  injection h with hv hd
  subst hv
  rfl

/-- C7: `safe_join(base, key)` fails with `DangerousKey` exactly when the
key is absolute, contains an embedded NUL byte, has a component that is
not a normal component, or is not exactly the concatenation of non-empty
normal components separated by single separators; when it succeeds it
returns the platform join of `base` and `key`. -/
theorem c7_safe_join (base key : FName) :
    (safeJoin base key = .error .dangerousKey ↔
      (key.head? = some '/' ∨ key.any (fun c => c = Char.ofNat 0) = true ∨
       (∃ c ∈ pathComponentsRel key, ¬ isNormalB c = true) ∨ ¬ IsExactConcat key)) ∧
    (∀ p, safeJoin base key = .ok p → p = pathJoin base key) := by
  constructor
  · by_cases habs : key.head? = some '/'
    · constructor
      · intro _; exact Or.inl habs
      · intro _; simp [safeJoin, habs]
    · by_cases hnul : key.any (fun c => c = Char.ofNat 0) = true
      · constructor
        · intro _; exact Or.inr (Or.inl hnul)
        · intro _; simp [safeJoin, habs, hnul]
      · by_cases hall : (pathComponentsRel key).all isNormalB
        · by_cases hguard : ((pathComponentsRel key).map normLen).sum = 0 ∨
              ¬ (((pathComponentsRel key).map normLen).sum +
                (pathComponentsRel key).length - 1 = key.length)
          · constructor
            · intro _
              refine Or.inr (Or.inr (Or.inr ?_))
              intro hconc
              obtain ⟨h1, h2, h3⟩ := (concat_characterization key).mpr hconc
              rcases hguard with hg | hg
              · exact h2 hg
              · exact hg h3
            · intro _
              simp [safeJoin, habs, hnul, hall, hguard]
          · constructor
            · intro herr
              simp [safeJoin, habs, hnul, hall, hguard] at herr
            · intro hrhs
              exfalso
              rcases hrhs with h | h | h | h
              · exact habs h
              · exact hnul h
              · obtain ⟨c, hc, hcn⟩ := h
                exact hcn (List.all_eq_true.mp hall c hc)
              · apply h
                apply (concat_characterization key).mp
                rw [not_or, not_not] at hguard
                exact ⟨List.all_eq_true.mp hall, hguard.1, hguard.2⟩
        · constructor
          · intro _
            refine Or.inr (Or.inr (Or.inl ?_))
            by_contra hno
            push_neg at hno
            exact hall (List.all_eq_true.mpr fun c hc => by simpa using hno c hc)
          · intro _
            simp [safeJoin, habs, hnul, hall]
  · intro p hok
    by_cases habs : key.head? = some '/'
    · simp [safeJoin, habs] at hok
    · by_cases hnul : key.any (fun c => c = Char.ofNat 0) = true
      · simp [safeJoin, habs, hnul] at hok
      · by_cases hall : (pathComponentsRel key).all isNormalB
        · by_cases hguard : ((pathComponentsRel key).map normLen).sum = 0 ∨
              ¬ (((pathComponentsRel key).map normLen).sum +
                (pathComponentsRel key).length - 1 = key.length)
          · simp [safeJoin, habs, hnul, hall, hguard] at hok
          · simp [safeJoin, habs, hnul, hall, hguard] at hok
            exact hok.symm
        · simp [safeJoin, habs, hnul, hall] at hok

/-- Witness for C7 at `base = "base"`, `key = "a/b"`: the join is
`"base/a/b"`. -/
theorem c7_safe_join_witness :
    ("base/a/b".toList : List Char) = pathJoin "base".toList "a/b".toList :=
  (c7_safe_join "base".toList "a/b".toList).2 "base/a/b".toList rfl

/-- C1 counterexample: a parseable current-version manifest listing two
unexpired generations, newest (age 5) first in file order, yields an entry
whose `on_disk` position 0 holds the OLDEST generation (age 3) and whose
`last_updated` is 3 — not the newest generation and not its age 5, as the
claim demands. -/
theorem c1_counterexample :
    readFromDir ⟨[(manifestName, .text [['1'], "5,0".toList, "3,0".toList])], []⟩
        false ⟨1, .plain, .noExpiry⟩ 0 =
      .ok (some ⟨none, [⟨.plain, 3⟩, ⟨.plain, 5⟩], 3⟩,
        ⟨[(manifestName, .text [['1'], "5,0".toList, "3,0".toList])], []⟩) ∧
    ¬ (3 : Nat) = 5 := by
  exact ⟨rfl, by decide⟩

/-- C1 (amended): for an entry directory whose manifest parses at the
current version and lists only unexpired generations (newest first in file
order, parsed as `fileGens`), `read_from_dir` returns an Entry whose
`on_disk` sequence is the REVERSE of file order — position 0 holds the
generation of the manifest's LAST line, the oldest — and whose
`last_updated` equals that oldest generation's age. -/
theorem c1_read_from_dir_reversed (d : DirM) (g : GenerationOpt) (now : Nat)
    (v : List Char) (ls : List (List Char)) (fileGens : List (Nat × Encoding))
    (hfile : assocGet d.files manifestName = some (.text (v :: ls)))
    (hver : parseUInt v (2 ^ 64) = some manifestVersion)
    (hparse : linesParsed ls = .ok fileGens)
    (hne : ¬ fileGens = [])
    (hfresh : ∀ p ∈ fileGens, ¬ satAdd p.1 g.expiration.asDur ≤ now) :
    ∃ g0 gtl, fileGens.reverse = g0 :: gtl ∧
      readFromDir d false g now =
        .ok (some ⟨none, fileGens.reverse.map (fun p => ⟨p.2, p.1⟩), g0.1⟩, d) := by
  have hmani : readMetadata d.files = .ok (some (manifestVersion, fileGens.reverse)) := by
    simp only [readMetadata, hfile, hver]
    rw [parseLinesAcc_of_linesParsed ls fileGens [] hparse]
    simp
  have hne2 : ¬ fileGens.reverse = [] := by simpa using hne
  have hfresh2 : ∀ p ∈ fileGens.reverse, ¬ satAdd p.1 g.expiration.asDur ≤ now := by
    intro p hp
    exact hfresh p (List.mem_reverse.mp hp)
  exact readFromDir_fresh d g now fileGens.reverse hmani hne2 hfresh2

/-- Witness for C1 (amended) at a concrete two-generation manifest. -/
theorem c1_read_from_dir_reversed_witness :
    ∃ g0 gtl, ([(5, Encoding.plain), (3, Encoding.plain)] :
        List (Nat × Encoding)).reverse = g0 :: gtl ∧
      readFromDir ⟨[(manifestName, .text [['1'], "5,0".toList, "3,0".toList])], []⟩
          false ⟨1, .plain, .noExpiry⟩ 0 =
        .ok (some ⟨none, ([(5, Encoding.plain), (3, Encoding.plain)] :
            List (Nat × Encoding)).reverse.map (fun p => ⟨p.2, p.1⟩), g0.1⟩,
          ⟨[(manifestName, .text [['1'], "5,0".toList, "3,0".toList])], []⟩) :=
  c1_read_from_dir_reversed
    ⟨[(manifestName, .text [['1'], "5,0".toList, "3,0".toList])], []⟩
    ⟨1, .plain, .noExpiry⟩ 0 ['1'] ["5,0".toList, "3,0".toList]
    [(5, .plain), (3, .plain)] rfl rfl rfl (by decide) (by decide)

/-- C2: removing an existing key deletes EVERY file in the entry's
directory — the foreign file `rogue_user_file` included — and then removes
the directory, because `try_remove_dir` performs no file-name filtering.
This is the scenario of the repository's own `tolerates_foreign_files`
test, which asserts the opposite. -/
theorem c2_remove_deletes_foreign :
    removeKey (some ⟨none, [⟨.plain, 7⟩], 7⟩)
        (some ⟨[(manifestName, .text [['1'], "7,0".toList]),
          (genName 0, .raw [1, 2]), ("rogue_user_file".toList, .raw [9, 9])], []⟩) =
      .ok (true, none, none) := by
  exact rfl

/-- C3 counterexample: an entry holding a fresh in-memory value
(`last_updated + d > now`) over an expired newest disk generation is
dropped by `get_opt` (result `None`, entry removed, directory cleaned) —
the claim says reading proceeds and the entry is kept in exactly this
case. -/
theorem c3_counterexample :
    getOptS (some ⟨some ⟨false, [1]⟩, [⟨.plain, 0⟩], 100⟩)
        (some ⟨[(manifestName, .text [['1']]), (genName 0, .raw [1])], []⟩) 50
        .keepInMemoryOnRead ⟨1, .plain, .expiresAfter 10⟩ =
      .ok (none, none, none) ∧
    ¬ satAdd 100 10 ≤ 50 ∧
    (some (⟨false, [1]⟩ : InMemEntry)).isSome = true := by
  exact ⟨rfl, by decide, rfl⟩

/-- C3 (amended): with expiration `ExpiresAfter d`, `get_opt` on a present
key drops the entry and cleans its directory exactly when
`last_updated + d ≤ now`, or when a newest disk generation exists and is
expired (REGARDLESS of any in-memory value), or when there is no disk
generation and no in-memory value; in every other case reading proceeds
and the entry is kept. -/
theorem c3_get_expiry (e : DirCacheEntry) (dir : Option DirM) (now : Nat)
    (pull : MemPullOpt) (m : Nat) (enc : Encoding) (dd : Nat) :
    (expiredCond e dd now →
      getOptS (some e) dir now pull ⟨m, enc, .expiresAfter dd⟩ =
        match tryRemoveDir dir with
        | .error er => .error er
        | .ok dir1 => .ok (none, none, dir1)) ∧
    (¬ expiredCond e dd now →
      ∀ res st2 dir2,
        getOptS (some e) dir now pull ⟨m, enc, .expiresAfter dd⟩ = .ok (res, st2, dir2) →
        (∃ v, res = some v) ∧ ∃ e2, st2 = some e2) := by
  constructor
  · intro hcond
    by_cases h1 : satAdd e.last_updated dd ≤ now
    · simp only [getOptS, ExpirationOpt.asDur, if_pos h1]
    · rcases hh : e.on_disk.head? with _ | fgen
      · have hmem : e.in_mem = none := by
          rcases hcond with hc | ⟨fg, hfg, _⟩ | ⟨_, hm⟩
          · exact absurd hc h1
          · rw [hh] at hfg; exact absurd hfg (by simp)
          · exact hm
        simp only [getOptS, ExpirationOpt.asDur, if_neg h1, hh, hmem, Option.isNone_none,
          if_true]
      · have hfe : satAdd fgen.age dd ≤ now := by
          rcases hcond with hc | ⟨fg, hfg, hfge⟩ | ⟨hnil, _⟩
          · exact absurd hc h1
          · rw [hh] at hfg
            injection hfg with hfg
            rw [hfg]
            exact hfge
          · rw [hnil] at hh
            exact absurd hh (by simp)
        simp only [getOptS, ExpirationOpt.asDur, if_neg h1, hh, if_pos hfe]
  · intro hncond res st2 dir2 heq
    have h1 : ¬ satAdd e.last_updated dd ≤ now := fun hc => hncond (Or.inl hc)
    have hred : getOptS (some e) dir now pull ⟨m, enc, .expiresAfter dd⟩ =
        getRead e dir pull := by
      rcases hh : e.on_disk.head? with _ | fgen
      · have hnil : e.on_disk = [] := by
          cases hod : e.on_disk with
          | nil => rfl
          | cons a b => rw [hod] at hh; exact absurd hh (by simp)
        rcases him : e.in_mem with _ | mm
        · exact absurd (Or.inr (Or.inr ⟨hnil, him⟩)) hncond
        · simp [getOptS, ExpirationOpt.asDur, if_neg h1, hh, him]
      · have hfe : ¬ satAdd fgen.age dd ≤ now :=
          fun hc => hncond (Or.inr (Or.inl ⟨fgen, hh, hc⟩))
        simp [getOptS, ExpirationOpt.asDur, if_neg h1, hh, hfe]
    rw [hred] at heq
    rcases him : e.in_mem with _ | mm
    · rcases dir with _ | dm
      · have : getRead e none pull = .error .readContent := by simp [getRead, him]
        rw [this] at heq
        exact absurd heq (by simp)
      · rcases hgf : assocGet dm.files (genName 0) with _ | fc
        · have : getRead e (some dm) pull = .error .readContent := by
            simp [getRead, him, hgf]
          rw [this] at heq
          exact absurd heq (by simp)
        · rcases fc with b | t
          · cases pull with
            | dontKeepInMemoryOnRead =>
              have : getRead e (some dm) .dontKeepInMemoryOnRead =
                  .ok (some b, some e, some dm) := by
                simp [getRead, him, hgf]
              rw [this] at heq
              injection heq with h3
              injection h3 with ha h4
              injection h4 with hb hc
              exact ⟨⟨b, ha.symm⟩, ⟨e, hb.symm⟩⟩
            | keepInMemoryOnRead =>
              have : getRead e (some dm) .keepInMemoryOnRead =
                  .ok (some b, some { e with in_mem := some ⟨true, b⟩ }, some dm) := by
                simp [getRead, him, hgf]
              rw [this] at heq
              injection heq with h3
              injection h3 with ha h4
              injection h4 with hb hc
              exact ⟨⟨b, ha.symm⟩, ⟨{ e with in_mem := some ⟨true, b⟩ }, hb.symm⟩⟩
          · have : getRead e (some dm) pull = .error .readContent := by
              simp [getRead, him, hgf]
            rw [this] at heq
            exact absurd heq (by simp)
    · have : getRead e dir pull = .ok (some mm.content, some e, dir) := by
        simp [getRead, him]
      rw [this] at heq
      injection heq with h3
      injection h3 with ha h4
      injection h4 with hb hc
      exact ⟨⟨mm.content, ha.symm⟩, ⟨e, hb.symm⟩⟩

/-- Witness for C3 (amended) at a fresh in-memory entry: reading proceeds
and the entry is kept. -/
theorem c3_get_expiry_witness :
    (∃ v, (some ([7] : Bytes) : Option Bytes) = some v) ∧
    (∃ e2, (some (⟨some ⟨true, [7]⟩, [⟨Encoding.plain, 100⟩], 100⟩ : DirCacheEntry) :
      Option DirCacheEntry) = some e2) :=
  (c3_get_expiry ⟨some ⟨true, [7]⟩, [⟨.plain, 100⟩], 100⟩ (some ⟨[], []⟩) 50
    .keepInMemoryOnRead 1 .plain 10).2
    (by
      intro hc
      rcases hc with hc | ⟨fg, hfg, hfge⟩ | ⟨hnil, _⟩
      · exact absurd hc (by decide)
      · injection hfg with hfg
        rw [← hfg] at hfge
        exact absurd hfge (by decide)
      · simp at hnil)
    (some [7]) (some ⟨some ⟨true, [7]⟩, [⟨.plain, 100⟩], 100⟩) (some ⟨[], []⟩) rfl

/-- C4: under a fixed `max_generations = M ≥ 1` and disk-writing push
options, every insert sequence on one key succeeds, and after each insert
the entry's `on_disk` has length at most `M` while the generation files on
disk are exactly `generation-0 .. generation-(len-1)` — so the number of
generation files never exceeds `M`. -/
theorem c4_generation_bound (lz4 : Bytes → Bytes) (M : Nat) (hM : 1 ≤ M)
    (steps : List InsStep)
    (hsteps : ∀ s ∈ steps, s.g.max_generations = M ∧ ¬ s.push = .memoryOnly) (n : Nat) :
    ∃ st2, insertSeq lz4 (steps.take n) (none, none) = .ok st2 ∧
      ∀ e, st2.1 = some e → e.on_disk.length ≤ M ∧
        ∃ d, st2.2 = some d ∧
          ∀ i, (∃ b, assocGet d.files (genName i) = some (.raw b)) ↔
            i < e.on_disk.length := by
  obtain ⟨st2, hseq, hinv⟩ :=
    insertSeq_inv lz4 M hM steps (none, none) n hsteps (Or.inl ⟨rfl, rfl⟩)
  refine ⟨st2, hseq, ?_⟩
  intro e he
  rcases hinv with ⟨hn, _⟩ | ⟨e2, d2, h1, h2, hle, hgi⟩
  · rw [he] at hn
    exact absurd hn (by simp)
  · rw [he] at h1
    injection h1 with h1
    subst h1
    exact ⟨hle, d2, h2, fun i => hgi.1 i⟩

/-- Witness for C4: three inserts with `M = 2` and alternating writer push
options. -/
theorem c4_generation_bound_witness :
    ∃ st2, insertSeq id
        ([⟨[1], .passthroughWrite, ⟨2, .plain, .noExpiry⟩, 10⟩,
          ⟨[2], .retainAndWrite, ⟨2, .plain, .noExpiry⟩, 20⟩,
          ⟨[3], .passthroughWrite, ⟨2, .plain, .noExpiry⟩, 30⟩].take 3) (none, none) =
      .ok st2 ∧
      ∀ e, st2.1 = some e → e.on_disk.length ≤ 2 ∧
        ∃ d, st2.2 = some d ∧
          ∀ i, (∃ b, assocGet d.files (genName i) = some (.raw b)) ↔
            i < e.on_disk.length :=
  c4_generation_bound id 2 (by decide) _ (by decide) 3

/-- C5: `get_or_insert` on an EXISTING key whose entry is expired does not
behave as `get`: `get_opt` cleans the entry and returns `Ok(None)`, and
the code `unwrap`s that `None`, i.e. it panics. -/
theorem c5_get_or_insert_panics :
    getOrInsertOpt (some ⟨some ⟨true, [7]⟩, [], 0⟩) (some ⟨[], []⟩) (.ok [9])
      .keepInMemoryOnRead .passthroughWrite ⟨1, .plain, .expiresAfter 1⟩ 5 id =
    .panicked := by
  exact rfl

/-- C6: with `RetainAndWrite`, `insert_new_data` (new-key path) leaves the
retained in-memory value with `committed = false` while
`run_dir_cache_entry_write` (existing-key path) leaves it with
`committed = true`; in both cases the bytes land in `generation-0` via
`generational_write` and `in_mem` holds the inserted bytes. -/
theorem c6_commit_flag (lz4 : Bytes → Bytes) (e : DirCacheEntry) (d : DirM)
    (dir : Option DirM) (data : Bytes) (g : GenerationOpt) (now : Nat) :
    (∀ e1 d1, insertNewData e d data .retainAndWrite g now lz4 = .ok (e1, d1) →
      e1.in_mem = some ⟨false, data⟩ ∧
      assocGet d1.files (genName 0) = some (.raw data)) ∧
    (∀ e1 d1, runDirCacheEntryWrite e dir data .retainAndWrite g now lz4 =
        .ok (e1, some d1) →
      e1.in_mem = some ⟨true, data⟩ ∧
      assocGet d1.files (genName 0) = some (.raw data)) := by
  constructor
  · intro e1 d1 h
    simp only [insertNewData] at h
    rcases hg : generationalWrite e d.files data g.old_gen_encoding g.max_generations now
        lz4 with er | ⟨e2, f2⟩
    · rw [hg] at h; exact absurd h (by simp)
    · rw [hg] at h
      obtain ⟨hgen0, _, _, _⟩ := generationalWrite_gen0 lz4 e d.files data
        g.old_gen_encoding g.max_generations now e2 f2 hg
      injection h with h
      injection h with he hd
      subst he
      rw [← hd]
      exact ⟨rfl, hgen0⟩
  · intro e1 d1 h
    simp only [runDirCacheEntryWrite] at h
    rcases hg : generationalWrite e (ensureDir dir).files data g.old_gen_encoding
        g.max_generations now lz4 with er | ⟨e2, f2⟩
    · rw [hg] at h; exact absurd h (by simp)
    · rw [hg] at h
      obtain ⟨hgen0, _, _, _⟩ := generationalWrite_gen0 lz4 e (ensureDir dir).files data
        g.old_gen_encoding g.max_generations now e2 f2 hg
      injection h with h
      injection h with he hd
      injection hd with hd
      subst he
      rw [← hd]
      exact ⟨rfl, hgen0⟩

/-- Witness for C6: one concrete insert through each path. -/
theorem c6_commit_flag_witness :
    ∃ e1 d1 e2 d2,
      insertNewData newEntry ⟨[], []⟩ [4] .retainAndWrite ⟨1, .plain, .noExpiry⟩ 9 id =
        .ok (e1, d1) ∧
      runDirCacheEntryWrite newEntry (some ⟨[], []⟩) [4] .retainAndWrite
        ⟨1, .plain, .noExpiry⟩ 9 id = .ok (e2, some d2) ∧
      e1.in_mem = some ⟨false, [4]⟩ ∧ e2.in_mem = some ⟨true, [4]⟩ ∧
      assocGet d1.files (genName 0) = some (.raw [4]) := by
  refine ⟨_, _, _, _, rfl, rfl, ?_, ?_, ?_⟩
  · exact ((c6_commit_flag id newEntry ⟨[], []⟩ (some ⟨[], []⟩) [4]
      ⟨1, .plain, .noExpiry⟩ 9).1 _ _ rfl).1
  · exact ((c6_commit_flag id newEntry ⟨[], []⟩ (some ⟨[], []⟩) [4]
      ⟨1, .plain, .noExpiry⟩ 9).2 _ _ rfl).1
  · exact ((c6_commit_flag id newEntry ⟨[], []⟩ (some ⟨[], []⟩) [4]
      ⟨1, .plain, .noExpiry⟩ 9).1 _ _ rfl).2

/-- C8: after each insert with a disk-writing push option, the file
`generation-0` contains exactly the last inserted bytes, unencoded, and
the record pushed at the head of `on_disk` has encoding `Plain` and age
equal to the write time, which also becomes `last_updated`. -/
theorem c8_newest_generation (lz4 : Bytes → Bytes) (e : DirCacheEntry) (dir : Option DirM)
    (data : Bytes) (push : MemPushOpt) (g : GenerationOpt) (now : Nat)
    (hpush : ¬ push = .memoryOnly) :
    ∀ e1 d1, runDirCacheEntryWrite e dir data push g now lz4 = .ok (e1, d1) →
      ∃ dm, d1 = some dm ∧ assocGet dm.files (genName 0) = some (.raw data) ∧
        e1.on_disk.head? = some ⟨.plain, now⟩ ∧ e1.last_updated = now := by
  intro e1 d1 h
  cases push with
  | memoryOnly => exact absurd rfl hpush
  | retainAndWrite =>
    simp only [runDirCacheEntryWrite] at h
    rcases hg : generationalWrite e (ensureDir dir).files data g.old_gen_encoding
        g.max_generations now lz4 with er | ⟨e2, f2⟩
    · rw [hg] at h; exact absurd h (by simp)
    · rw [hg] at h
      obtain ⟨hgen0, hhead, hlast, _⟩ := generationalWrite_gen0 lz4 e (ensureDir dir).files
        data g.old_gen_encoding g.max_generations now e2 f2 hg
      injection h with h
      injection h with he hd
      subst he
      exact ⟨{ ensureDir dir with files := f2 }, hd.symm, hgen0, hhead, hlast⟩
  | passthroughWrite =>
    simp only [runDirCacheEntryWrite] at h
    rcases hg : generationalWrite { e with in_mem := none } (ensureDir dir).files data
        g.old_gen_encoding g.max_generations now lz4 with er | ⟨e2, f2⟩
    · rw [hg] at h; exact absurd h (by simp)
    · rw [hg] at h
      obtain ⟨hgen0, hhead, hlast, _⟩ := generationalWrite_gen0 lz4 { e with in_mem := none }
        (ensureDir dir).files data g.old_gen_encoding g.max_generations now e2 f2 hg
      injection h with h
      injection h with he hd
      subst he
      exact ⟨{ ensureDir dir with files := f2 }, hd.symm, hgen0, hhead, hlast⟩

/-- Witness for C8: a passthrough insert on a fresh key. -/
theorem c8_newest_generation_witness :
    ∃ e1 d1, runDirCacheEntryWrite newEntry none [5] .passthroughWrite
        ⟨1, .plain, .noExpiry⟩ 11 id = .ok (e1, d1) ∧
      ∃ dm, d1 = some dm ∧ assocGet dm.files (genName 0) = some (.raw [5]) ∧
        e1.on_disk.head? = some ⟨.plain, 11⟩ ∧ e1.last_updated = 11 := by
  refine ⟨_, _, rfl, ?_⟩
  exact c8_newest_generation id newEntry none [5] .passthroughWrite
    ⟨1, .plain, .noExpiry⟩ 11 (by decide) _ _ rfl

/-- C9: after `sync`, every entry whose in-memory value was present and
already committed has it dropped (`in_mem = None`), regardless of the push
option passed to sync, `RetainAndWrite` included. -/
theorem c9_sync_drops_committed (lz4 : Bytes → Bytes) (basePath : FName)
    (push : MemPushOpt) (g : GenerationOpt) (now : Nat) :
    ∀ store dirs store2 dirs2,
      syncStore basePath push g now lz4 store dirs = .ok (store2, dirs2) →
      ∀ k v mv, assocGet store k = some v → v.in_mem = some mv → mv.committed = true →
        ∃ v2, assocGet store2 k = some v2 ∧ v2.in_mem = none := by
  intro store
  induction store with
  | nil =>
    intro dirs store2 dirs2 h k v mv hk
    exact absurd hk (by simp [assocGet])
  | cons p rest ih =>
    intro dirs store2 dirs2 h k v mv hk hm hc
    obtain ⟨k0, v0⟩ := p
    simp only [syncStore] at h
    rcases hsj : safeJoin basePath k0 with er | pj
    · rw [hsj] at h
      exact absurd h (by simp)
    · simp only [hsj] at h
      rcases hdi : dumpInMem v0 (ensureDir (assocGet dirs k0).join) (isRetain push)
          g.max_generations g.old_gen_encoding now lz4 with er | ⟨v1, d1⟩
      · simp only [hdi] at h
        exact absurd h (by simp)
      · simp only [hdi] at h
        rcases hrec : syncStore basePath push g now lz4 rest
            ((k0, some d1) :: assocRemove dirs k0) with er | ⟨rest1, dirs1⟩
        · simp only [hrec] at h
          exact absurd h (by simp)
        · simp only [hrec] at h
          injection h with h
          injection h with hs hd
          subst hs
          by_cases hkk : k0 = k
          · have hv : v = v0 := by
              simp [assocGet, hkk] at hk
              exact hk.symm
            subst hv
            have hdrop : v1.in_mem = none :=
              dumpInMem_committed lz4 v (ensureDir (assocGet dirs k0).join) (isRetain push)
                g.max_generations g.old_gen_encoding now mv hm hc v1 d1 hdi
            exact ⟨v1, by simp [assocGet, hkk], hdrop⟩
          · have hk2 : assocGet rest k = some v := by
              simpa [assocGet, hkk] using hk
            obtain ⟨v2, hv2, hv2n⟩ := ih _ _ _ hrec k v mv hk2 hm hc
            exact ⟨v2, by simp [assocGet, hkk, hv2], hv2n⟩

/-- Witness for C9: a one-key store with a committed in-memory value,
synced with `RetainAndWrite`. -/
theorem c9_sync_drops_committed_witness :
    ∃ store2 dirs2,
      syncStore "base".toList .retainAndWrite ⟨2, .plain, .noExpiry⟩ 99 id
        [("k".toList, ⟨some ⟨true, [5]⟩, [⟨.plain, 7⟩], 7⟩)]
        [("k".toList, some ⟨[(genName 0, .raw [5])], []⟩)] = .ok (store2, dirs2) ∧
      ∃ v2, assocGet store2 "k".toList = some v2 ∧ v2.in_mem = none := by
  refine ⟨[("k".toList, ⟨none, [⟨.plain, 7⟩], 7⟩)],
    [("k".toList, some ⟨[(manifestName, .text (renderManifest [⟨.plain, 7⟩])),
      (genName 0, .raw [5])], []⟩)], rfl, ?_⟩
  exact c9_sync_drops_committed id "base".toList .retainAndWrite ⟨2, .plain, .noExpiry⟩ 99
    [("k".toList, ⟨some ⟨true, [5]⟩, [⟨.plain, 7⟩], 7⟩)]
    [("k".toList, some ⟨[(genName 0, .raw [5])], []⟩)]
    [("k".toList, ⟨none, [⟨.plain, 7⟩], 7⟩)]
    [("k".toList, some ⟨[(manifestName, .text (renderManifest [⟨.plain, 7⟩])),
      (genName 0, .raw [5])], []⟩)]
    rfl "k".toList ⟨some ⟨true, [5]⟩, [⟨.plain, 7⟩], 7⟩ ⟨true, [5]⟩ rfl rfl rfl

/-- C10 counterexample: a root whose manifest parses at the current
version and lists an UNEXPIRED newest generation (age 20) above an expired
oldest one (age 0): `read_from_dir` reads the reversed list, drops
everything at reversed index 0, yields no entry, and `open` SUCCEEDS —
the claim says it must always fail with `PathRelativize`. -/
theorem c10_counterexample :
    readFromDisk "/r".toList
        (.node [(manifestName, .text [['1'], "20,0".toList, "0,0".toList])] [])
        false ⟨1, .plain, .expiresAfter 5⟩ 10 = .ok [] ∧
    readMetadata [(manifestName, .text [['1'], "20,0".toList, "0,0".toList])] =
      .ok (some (1, [(0, .plain), (20, .plain)])) ∧
    ¬ satAdd 20 5 ≤ 10 := by
  exact ⟨rfl, rfl, by decide⟩

/-- C10 (amended): whenever `read_from_dir` on the root itself yields an
entry (manifest parses at the current version and the generation at
reversed position 0 — the manifest's last line — is unexpired), `open`'s
scan always fails with `PathRelativize`, because `relativize(base, base)`
rejects equal paths. -/
theorem c10_root_manifest (basePath : FName) (root : FsDir) (eager : Bool)
    (g : GenerationOpt) (now : Nat) (de : DirCacheEntry) (d2 : DirM)
    (hroot : readFromDir root.toDirM eager g now = .ok (some de, d2)) :
    readFromDisk basePath root eager g now = .error .pathRelativize := by
  cases root with
  | node fs subs =>
    have hsz : sizeQueue [(basePath, FsDir.node fs subs)] = sizePairs subs + 1 := by
      simp [sizeQueue, FsDir.size]
      omega
    rw [readFromDisk, hsz]
    simp only [readFromDiskGoF, hroot, relativize_self]

/-- Witness for C10 (amended): a root manifest with a single unexpired
generation makes `open` fail with `PathRelativize`. -/
theorem c10_root_manifest_witness :
    readFromDisk "/r".toList (.node [(manifestName, .text [['1'], "20,0".toList])] [])
      false ⟨1, .plain, .expiresAfter 5⟩ 10 = .error .pathRelativize :=
  c10_root_manifest "/r".toList (.node [(manifestName, .text [['1'], "20,0".toList])] [])
    false ⟨1, .plain, .expiresAfter 5⟩ 10 ⟨none, [⟨.plain, 20⟩], 20⟩
    ⟨[(manifestName, .text [['1'], "20,0".toList])], []⟩ rfl

end Dc
